import Mathlib

/-!
Verification development for the checker-orchestration core of the letsdebug
repository (src/checker.go).

The pure parts (the ValidationMethod enumeration and the validMethods
membership map) are embedded directly as Lean functions.  The concurrent
part, asyncCheckerBlock.Check, is embedded as a small-step state machine:
each member goroutine, the waitgroup coordinator goroutine and the
aggregating select-loop are modelled as explicitly scheduled units, and the
two buffered channels (resultsChan and errChan, both with capacity len(c))
are modelled as append-only send logs together with a receive cursor, which
is exactly the FIFO queue discipline of a Go channel with a single receiver.
A schedule is a list of labels; running a schedule from the initial state
yields one possible interleaving of asyncCheckerBlock.Check.
-/

namespace LetsDebug

/-- ValidationMethod represents an ACME validation method; in Go it is a
string type. -/
abbrev ValidationMethod := String

/-- HTTP01 represents the ACME http-01 validation method. -/
def HTTP01 : ValidationMethod := "http-01"

/-- DNS01 represents the ACME dns-01 validation method. -/
def DNS01 : ValidationMethod := "dns-01"

/-- TLSSNI01 represents the ACME tls-sni-01 validation method. -/
def TLSSNI01 : ValidationMethod := "tls-sni-01"

/-- TLSSNI02 represents the ACME tls-sni-02 validation method. -/
def TLSSNI02 : ValidationMethod := "tls-sni-02"

/-- Membership lookup in the validMethods map of checker.go
(map[ValidationMethod]bool with the four known methods mapped to true);
a Go map lookup on a missing key yields the zero value false. -/
def validMethods (m : ValidationMethod) : Bool :=
  decide (m = HTTP01) || decide (m = DNS01) || decide (m = TLSSNI01) ||
    decide (m = TLSSNI02)

/-- Go error values as this package distinguishes them: the distinguished
shared sentinel errNotApplicable, whose identity is captured by the
dedicated constructor, and every other non-nil error value, carrying its
message.  An error built with GoError.mk whose message happens to equal the
sentinel text is still a different value: comparison is by identity, never
by message text.  A nil Go error is Option.none of this type. -/
inductive GoError where
  | notApplicable : GoError
  | mk (msg : String) : GoError
deriving DecidableEq, Repr

/-- errNotApplicable is the shared sentinel declared in checker.go. -/
def errNotApplicable : GoError := GoError.notApplicable

/-- Message text of a Go error value; the sentinel was created by
errors.New with this fixed text. -/
def GoError.message : GoError → String
  | .notApplicable => "Checker not applicable for this domain and method"
  | .mk m => m

/-- The test on line 83 of checker.go: err != nil && err != errNotApplicable,
where the second comparison is error identity. -/
def isRealError : Option GoError → Bool
  | none => false
  | some GoError.notApplicable => false
  | some (GoError.mk _) => true

/-- Outcome of one member checker's Check invocation inside its goroutine:
either Check returns a pair (problems, error), or the invocation panics
carrying some value (rendered with percent-v by fmt). -/
inductive CheckOutcome (P : Type) where
  | ret (probs : List P) (err : Option GoError)
  | panics (v : String)
deriving DecidableEq

/-- Problems a member's Check returned; a panicking invocation returns
nothing. -/
def probsOf {P : Type} : CheckOutcome P → List P
  | .ret ps _ => ps
  | .panics _ => []

/-- Whether the member's invocation panics. -/
def isPanicB {P : Type} : CheckOutcome P → Bool
  | .ret _ _ => false
  | .panics _ => true

/-- Whether the member completes via the results channel, which is the case
exactly when it returns and its error is nil or the sentinel. -/
def isNormalB {P : Type} : CheckOutcome P → Bool
  | .ret _ e => !isRealError e
  | .panics _ => false

/-- The error value a non-normal member delivers on the error channel:
an erroring member delivers its own error, a panicking member delivers the
fmt.Errorf("panic: %v", r) conversion. -/
def sentErrOf {P : Type} : CheckOutcome P → Option GoError
  | .ret _ e => if isRealError e then e else none
  | .panics v => some (GoError.mk ("panic: " ++ v))

/-- Progress of one member goroutine: still inside chk.Check (running),
past its channel send but with the deferred function still pending
(deferring), or fully exited (finished).  A panicking goroutine performs
its errChan send inside the deferred function and exits without calling
wg.Done, so it moves from running directly to finished. -/
inductive MemberPhase where
  | running | deferring | finished
deriving DecidableEq, Repr

/-- One value sent on the error channel, together with ghost provenance:
sender = some k for member goroutine k, sender = none for the coordinator
goroutine that sends the nil marker after wg.Wait. -/
structure ErrSlot where
  sender : Option Nat
  val : Option GoError
deriving DecidableEq, Repr

/-- State of the aggregating for-select loop on lines 93 to 105 of
checker.go: either still looping with loop counter i and accumulator acc,
or Check has returned the pair (probs, err). -/
inductive AggPhase (P : Type) where
  | looping (i : Nat) (acc : List P)
  | returned (probs : List P) (err : Option GoError)
deriving DecidableEq

/-- Global state of one asyncCheckerBlock.Check invocation.  Each channel is
represented by the append-only log of values sent on it plus the number of
values the aggregator has received from it; the channel content is the log
with the received prefix dropped, and the buffer occupancy is the length of
that content.  The Nat in a resLog entry is ghost provenance (the sending
member's index); the value on the wire is just the problem list. -/
structure GState (P : Type) where
  phases : List MemberPhase
  doneCount : Nat
  nilSent : Bool
  resLog : List (Nat × List P)
  resPop : Nat
  errLog : List ErrSlot
  errPop : Nat
  agg : AggPhase P
deriving DecidableEq

/-- Current content of the results channel (buffer capacity len(c)). -/
def resultsChan {P : Type} (s : GState P) : List (Nat × List P) :=
  s.resLog.drop s.resPop

/-- Current content of the error channel (buffer capacity len(c)). -/
def errChan {P : Type} (s : GState P) : List ErrSlot :=
  s.errLog.drop s.errPop

/-- State at the start of asyncCheckerBlock.Check, after wg.Add(len(c)) and
the channel allocations: every member goroutine about to run its Check, no
Done calls, nothing sent, the loop at i = 0 with an empty accumulator. -/
def initState (P : Type) (n : Nat) : GState P :=
  ⟨List.replicate n .running, 0, false, [], 0, [], 0, .looping 0 []⟩

/-- Scheduling labels: one step of member goroutine k (its channel send or
its deferred wg.Done, whichever is pending), the coordinator goroutine
sending the nil marker once wg.Wait has returned, and the three possible
events of the aggregating loop (receive a result, receive from the error
channel, or exit the loop normally). -/
inductive Label where
  | memberAct (k : Nat)
  | coordinatorNil
  | aggResult
  | aggErr
  | aggDone
deriving DecidableEq, Repr

/-- The observable send of member goroutine k with outcome b, lines 82 to 87
of checker.go plus the panic branch of the deferred function: a normal
member (nil or sentinel error) sends its problems on the results channel and
still owes its deferred wg.Done; an erroring member sends its error on the
error channel and still owes its deferred wg.Done (the defer runs on the
early return, sees a nil recover, and calls wg.Done); a panicking member
sends the converted panic error on the error channel from inside the
deferred function and exits without ever calling wg.Done.  A send on a full
buffer is not enabled. -/
def memberSend {P : Type} (bs : List (CheckOutcome P)) (k : Nat)
    (b : CheckOutcome P) (s : GState P) : Option (GState P) :=
  if isNormalB b then
    if (resultsChan s).length < bs.length then
      some { s with phases := s.phases.set k .deferring,
                    resLog := s.resLog ++ [(k, probsOf b)] }
    else none
  else
    if (errChan s).length < bs.length then
      match b with
      | .panics v =>
          some { s with phases := s.phases.set k .finished,
                        errLog := s.errLog ++
                          [⟨some k, some (GoError.mk ("panic: " ++ v))⟩] }
      | .ret _ e =>
          some { s with phases := s.phases.set k .deferring,
                        errLog := s.errLog ++ [⟨some k, e⟩] }
    else none

/-- One atomic step of the whole asyncCheckerBlock.Check state machine,
parameterised by the list bs of member outcomes (member k's Check returns,
or panics with, bs[k]).  Returns none when the labelled unit has no enabled
step in state s. -/
def step {P : Type} (bs : List (CheckOutcome P)) (s : GState P) :
    Label → Option (GState P)
  | .memberAct k =>
    match s.phases[k]?, bs[k]? with
    | some .running, some b => memberSend bs k b s
    | some .deferring, _ =>
        some { s with phases := s.phases.set k .finished,
                      doneCount := s.doneCount + 1 }
    | _, _ => none
  | .coordinatorNil =>
    if s.doneCount = bs.length ∧ s.nilSent = false ∧
        (errChan s).length < bs.length then
      some { s with nilSent := true, errLog := s.errLog ++ [⟨none, none⟩] }
    else none
  | .aggResult =>
    match s.agg, resultsChan s with
    | .looping i acc, (_, ps) :: _ =>
        if i < bs.length then
          some { s with resPop := s.resPop + 1,
                        agg := .looping (i + 1) (acc ++ ps) }
        else none
    | _, _ => none
  | .aggErr =>
    match s.agg, errChan s with
    | .looping i acc, slot :: _ =>
        if i < bs.length then
          some { s with errPop := s.errPop + 1,
                        agg := .returned acc slot.val }
        else none
    | _, _ => none
  | .aggDone =>
    match s.agg with
    | .looping i acc =>
        if i = bs.length then some { s with agg := .returned acc none }
        else none
    | _ => none

/-- Execute a schedule from the initial state; labels whose unit has no
enabled step are skipped, so every list of labels denotes a (possibly
partial) interleaving. -/
def run {P : Type} (bs : List (CheckOutcome P)) (sched : List Label) :
    GState P :=
  sched.foldl (fun s l => (step bs s l).getD s) (initState P bs.length)

/-- States reachable by some interleaving of one Check invocation with
member outcomes bs. -/
inductive Reachable {P : Type} (bs : List (CheckOutcome P)) :
    GState P → Prop where
  | init : Reachable bs (initState P bs.length)
  | next {s s' : GState P} {l : Label} :
      Reachable bs s → step bs s l = some s' → Reachable bs s'

/-- A checker, as the Checker interface sees it: a function from the shared
scan context (opaque, modelled as a type parameter), domain and method to
the outcome of this invocation. -/
def CheckerFun (Ctx P : Type) :=
  Ctx → String → ValidationMethod → CheckOutcome P

/-- asyncCheckerBlock is a list of checkers that can be run simultaneously. -/
def AsyncCheckerBlock (Ctx P : Type) := List (CheckerFun Ctx P)

/-- The member outcomes of one invocation of an asyncCheckerBlock on the
given context, domain and method. -/
def blockOutcomes {Ctx P : Type} (c : AsyncCheckerBlock Ctx P) (ctx : Ctx)
    (domain : String) (method : ValidationMethod) : List (CheckOutcome P) :=
  c.map (fun chk => chk ctx domain method)


/-- Member goroutine k, in the given phase list, has performed its channel
send. -/
def NotRunningL (phases : List MemberPhase) (k : Nat) : Prop :=
  phases[k]? = some MemberPhase.deferring ∨
    phases[k]? = some MemberPhase.finished

/-- Member goroutine k has performed its channel send (it is past line 84 or
line 87, or past the panic send in the deferred function). -/
def NotRunning {P : Type} (s : GState P) (k : Nat) : Prop :=
  NotRunningL s.phases k

/-- Whether member k has contributed its wg.Done: it must exist, must not
panic (a panicking goroutine skips wg.Done) and must have fully exited. -/
def doneBit {P : Type} (bs : List (CheckOutcome P))
    (phases : List MemberPhase) (k : Nat) : Bool :=
  match bs[k]?, phases[k]? with
  | some b, some ph => !isPanicB b && decide (ph = MemberPhase.finished)
  | _, _ => false

/-- Number of wg.Done calls performed so far. -/
def countDone {P : Type} (bs : List (CheckOutcome P))
    (phases : List MemberPhase) : Nat :=
  (List.range bs.length).countP (doneBit bs phases)

/-- The results already received by the aggregating loop, oldest first
(ghost sender attached). -/
def recvd {P : Type} (s : GState P) : List (Nat × List P) :=
  s.resLog.take s.resPop

/-- A state in which no unit of the Check invocation has any remaining
obligation: every member goroutine has exited, the coordinator has delivered
its nil marker if wg.Wait ever returns (the counter reached len(c)), and the
aggregating loop has returned. -/
def Final {P : Type} (bs : List (CheckOutcome P)) (s : GState P) : Prop :=
  (∀ k < bs.length, s.phases[k]? = some MemberPhase.finished) ∧
    (s.doneCount = bs.length → s.nilSent = true) ∧
    (∃ res err, s.agg = AggPhase.returned res err)

/-- Remaining work of one member goroutine. -/
def phaseWeight : MemberPhase → Nat
  | .running => 2
  | .deferring => 1
  | .finished => 0

/-- Remaining work of the aggregating loop. -/
def aggWeight {P : Type} (n : Nat) : AggPhase P → Nat
  | .looping i _ => n + 1 - i
  | .returned _ _ => 0

/-- Total remaining work of one Check invocation; it strictly decreases on
every enabled step, so every interleaving is finite. -/
def stepMeasure {P : Type} (bs : List (CheckOutcome P)) (s : GState P) : Nat :=
  (s.phases.map phaseWeight).sum + (if s.nilSent then 0 else 1) +
    aggWeight bs.length s.agg

/-- The inductive invariant of the Check state machine: channel logs and
cursors, the waitgroup counter and the aggregator state are mutually
consistent with the member phases and the member outcomes bs. -/
structure Inv {P : Type} (bs : List (CheckOutcome P)) (s : GState P) :
    Prop where
  len : s.phases.length = bs.length
  resPop_le : s.resPop ≤ s.resLog.length
  errPop_le1 : s.errPop ≤ 1
  errPop_le : s.errPop ≤ s.errLog.length
  res_entries : ∀ e ∈ s.resLog, ∃ b, bs[e.1]? = some b ∧
    isNormalB b = true ∧ probsOf b = e.2 ∧ NotRunning s e.1
  res_nodup : (s.resLog.map Prod.fst).Nodup
  res_complete : ∀ (k : Nat) (b : CheckOutcome P), bs[k]? = some b → isNormalB b = true →
    NotRunning s k → k ∈ s.resLog.map Prod.fst
  err_entries : ∀ e ∈ s.errLog,
    (e.sender = none ∧ e.val = none ∧ s.nilSent = true) ∨
    (∃ k b, e.sender = some k ∧ bs[k]? = some b ∧ isNormalB b = false ∧
      e.val = sentErrOf b ∧ NotRunning s k)
  err_nodup : (s.errLog.filterMap ErrSlot.sender).Nodup
  err_complete : ∀ (k : Nat) (b : CheckOutcome P), bs[k]? = some b → isNormalB b = false →
    NotRunning s k → k ∈ s.errLog.filterMap ErrSlot.sender
  nil_shape : s.nilSent = true → ∃ pre, s.errLog = pre ++ [⟨none, none⟩] ∧
    ∀ e ∈ pre, e.sender ≠ none
  done_eq : s.doneCount = countDone bs s.phases
  nil_done : s.nilSent = true → s.doneCount = bs.length
  agg_loop : ∀ (i : Nat) (acc : List P), s.agg = AggPhase.looping i acc →
    i = s.resPop ∧ acc = ((recvd s).map Prod.snd).flatten ∧ s.errPop = 0
  agg_ret : ∀ (res : List P) (err : Option GoError), s.agg = AggPhase.returned res err →
    res = ((recvd s).map Prod.snd).flatten ∧
    ((s.errPop = 1 ∧ ∃ slot rest, s.errLog = slot :: rest ∧ err = slot.val) ∨
     (s.errPop = 0 ∧ err = none ∧ s.resPop = bs.length))
  def_nonpanic : ∀ (k : Nat), s.phases[k]? = some MemberPhase.deferring →
    ∃ b, bs[k]? = some b ∧ isPanicB b = false

theorem reachable_aux {P : Type} (bs : List (CheckOutcome P)) :
    ∀ (sched : List Label) (s : GState P), Reachable bs s →
      Reachable bs (sched.foldl (fun s l => (step bs s l).getD s) s) := by
  intro sched
  induction sched with
  | nil => intro s hs; exact hs
  | cons l rest ih =>
    intro s hs
    simp only [List.foldl_cons]
    apply ih
    cases h : step bs s l with
    | none => simpa [h] using hs
    | some s2 => simpa [h] using Reachable.next hs h

/-- Every schedule run ends in a reachable state. -/
theorem reachable_run {P : Type} (bs : List (CheckOutcome P))
    (sched : List Label) : Reachable bs (run bs sched) :=
  reachable_aux bs sched _ Reachable.init

theorem length_le_of_nodup_lt {l : List Nat} {n : Nat}
    (hnd : l.Nodup) (hlt : ∀ x ∈ l, x < n) : l.length ≤ n := by
  calc l.length = l.toFinset.card := (List.toFinset_card_of_nodup hnd).symm
    _ ≤ (Finset.range n).card := by
        apply Finset.card_le_card
        intro x hx
        rw [List.mem_toFinset] at hx
        exact Finset.mem_range.mpr (hlt x hx)
    _ = n := Finset.card_range n

theorem length_lt_of_nodup_lt_not_mem {l : List Nat} {n k : Nat}
    (hnd : l.Nodup) (hlt : ∀ x ∈ l, x < n) (hk : k < n) (hmem : k ∉ l) :
    l.length < n := by
  have h1 : (k :: l).Nodup := List.nodup_cons.mpr ⟨hmem, hnd⟩
  have h2 : (k :: l).length ≤ n := by
    apply length_le_of_nodup_lt h1
    intro x hx
    rcases List.mem_cons.mp hx with h | h
    · exact h ▸ hk
    · exact hlt x h
  simpa [List.length_cons] using h2

theorem length_filterMap_of_all_isSome {α β : Type} {f : α → Option β}
    {l : List α} (h : ∀ x ∈ l, (f x).isSome) :
    (l.filterMap f).length = l.length := by
  rw [List.length_filterMap_eq_countP]
  exact List.countP_eq_length.mpr h

theorem countP_update_one {l : List Nat} {f g : Nat → Bool} {k : Nat}
    (hnd : l.Nodup) (hk : k ∈ l) (hf : f k = false) (hg : g k = true)
    (hagree : ∀ j ∈ l, j ≠ k → f j = g j) :
    l.countP g = l.countP f + 1 := by
  induction l with
  | nil => cases hk
  | cons a t ih =>
    rw [List.countP_cons, List.countP_cons]
    rcases List.mem_cons.mp hk with heq | hkt
    · subst heq
      have hnmem : k ∉ t := (List.nodup_cons.mp hnd).1
      have hcong : t.countP f = t.countP g := by
        apply List.countP_congr
        intro j hj
        have := hagree j (List.mem_cons_of_mem _ hj) (fun h => hnmem (h ▸ hj))
        simp [this]
      simp [hf, hg, hcong]
    · have hak : a ≠ k := by
        intro h
        exact (List.nodup_cons.mp hnd).1 (h ▸ hkt)
      have ha : f a = g a := hagree a (List.mem_cons_self a t) hak
      have ht : t.countP g = t.countP f + 1 :=
        ih (List.nodup_cons.mp hnd).2 hkt
          (fun j hj hjk => hagree j (List.mem_cons_of_mem _ hj) hjk)
      rw [ha, ht]
      omega

theorem sum_map_set {α : Type} (f : α → Nat) :
    ∀ (l : List α) (k : Nat) (a : α) (h : k < l.length),
      ((l.set k a).map f).sum + f (l.get ⟨k, h⟩) =
        (l.map f).sum + f a := by
  intro l
  induction l with
  | nil => intro k a h; simp at h
  | cons x t ih =>
    intro k a h
    cases k with
    | zero => simp [List.set]; omega
    | succ k =>
      have hk : k < t.length := by simpa using h
      have := ih k a hk
      simp only [List.set, List.map, List.sum_cons, List.get_cons_succ]
      omega

theorem notRunning_init {P : Type} (n k : Nat) :
    ¬ NotRunning (initState P n) k := by
  intro h
  rcases h with h | h <;>
  · simp only [initState, List.getElem?_replicate] at h
    split at h <;> simp_all

/-- The invariant holds in the initial state. -/
theorem inv_init {P : Type} (bs : List (CheckOutcome P)) :
    Inv bs (initState P bs.length) := by
  refine ⟨?_, ?_, ?_, ?_, ?_, ?_, ?_, ?_, ?_, ?_, ?_, ?_, ?_, ?_, ?_, ?_⟩
  · simp [initState]
  · simp [initState]
  · simp [initState]
  · simp [initState]
  · intro e he; simp [initState] at he
  · simp [initState]
  · intro k b _ _ hnr
    exact absurd hnr (notRunning_init bs.length k)
  · intro e he; simp [initState] at he
  · simp [initState]
  · intro k b _ _ hnr
    exact absurd hnr (notRunning_init bs.length k)
  · intro h; simp [initState] at h
  · simp only [initState, countDone]
    symm
    rw [List.countP_eq_zero]
    intro k hk
    simp only [doneBit, List.getElem?_replicate, List.mem_range.mp hk,
      if_pos]
    cases bs[k]? <;> simp
  · intro h; simp [initState] at h
  · intro i acc h
    simp only [initState] at h
    injection h with h1 h2
    subst h1; subst h2
    simp [initState, recvd]
  · intro res err h
    simp only [initState] at h
    cases h
  · intro k h
    simp only [initState, List.getElem?_replicate] at h
    split at h <;> simp_all

theorem isPanicB_false_of_normal {P : Type} {b : CheckOutcome P}
    (h : isNormalB b = true) : isPanicB b = false := by
  cases b <;> simp_all [isNormalB, isPanicB]

theorem lt_of_phase_some {P : Type} {s : GState P} {k : Nat}
    {ph : MemberPhase} (h : s.phases[k]? = some ph) : k < s.phases.length := by
  rcases List.getElem?_eq_some_iff.mp h with ⟨hk, _⟩
  exact hk

theorem notRunningL_set_mono {phases : List MemberPhase} {k j : Nat}
    {ph : MemberPhase}
    (hph : ph = MemberPhase.deferring ∨ ph = MemberPhase.finished) :
    NotRunningL phases j → NotRunningL (phases.set k ph) j := by
  intro h
  by_cases hjk : j = k
  · subst hjk
    have hj : j < phases.length := by
      rcases h with h | h <;> exact (List.getElem?_eq_some_iff.mp h).1
    have : (phases.set j ph)[j]? = some ph := by
      rw [List.getElem?_set_self]
      simpa using hj
    rcases hph with h2 | h2
    · exact Or.inl (h2 ▸ this)
    · exact Or.inr (h2 ▸ this)
  · unfold NotRunningL
    rw [List.getElem?_set_ne (fun hq => hjk hq.symm)]
    exact h

theorem notRunningL_set_self {phases : List MemberPhase} {k : Nat}
    {ph : MemberPhase}
    (hph : ph = MemberPhase.deferring ∨ ph = MemberPhase.finished)
    (hk : k < phases.length) : NotRunningL (phases.set k ph) k := by
  have : (phases.set k ph)[k]? = some ph := by
    rw [List.getElem?_set_self]
    simpa using hk
  rcases hph with h2 | h2
  · exact Or.inl (h2 ▸ this)
  · exact Or.inr (h2 ▸ this)

theorem notRunningL_set_ne {phases : List MemberPhase} {k j : Nat}
    {ph : MemberPhase} (hne : j ≠ k) :
    NotRunningL (phases.set k ph) j ↔ NotRunningL phases j := by
  unfold NotRunningL
  rw [List.getElem?_set_ne (fun hq => hne hq.symm)]

/-- If the waitgroup counter has reached len(c), every member goroutine has
exited and none of them panicked. -/
theorem all_done_of_doneCount {P : Type} {bs : List (CheckOutcome P)}
    {s : GState P} (hinv : Inv bs s) (h : s.doneCount = bs.length) :
    ∀ k < bs.length, (∃ b, bs[k]? = some b ∧ isPanicB b = false) ∧
      s.phases[k]? = some MemberPhase.finished := by
  intro k hk
  have hcount : countDone bs s.phases = bs.length := by
    rw [← hinv.done_eq]; exact h
  have hall : ∀ j ∈ List.range bs.length, doneBit bs s.phases j = true := by
    apply List.countP_eq_length.mp
    simpa [countDone, List.length_range] using hcount
  have hbit : doneBit bs s.phases k = true :=
    hall k (List.mem_range.mpr hk)
  unfold doneBit at hbit
  cases hb : bs[k]? with
  | none => rw [hb] at hbit; simp at hbit
  | some b =>
    cases hp : s.phases[k]? with
    | none => rw [hb, hp] at hbit; simp at hbit
    | some ph =>
      rw [hb, hp] at hbit
      simp only [Bool.and_eq_true, Bool.not_eq_true', decide_eq_true_eq]
        at hbit
      refine ⟨⟨b, rfl, hbit.1⟩, ?_⟩
      rw [hbit.2]

theorem not_notRunning_of_running {P : Type} {s : GState P} {k : Nat}
    (hph : s.phases[k]? = some MemberPhase.running) : ¬ NotRunning s k := by
  intro h
  rcases h with h | h <;> rw [hph] at h <;> simp at h

theorem countDone_set_eq {P : Type} (bs : List (CheckOutcome P))
    (phases : List MemberPhase) (k : Nat) (ph : MemberPhase)
    (h : doneBit bs (phases.set k ph) k = doneBit bs phases k) :
    countDone bs (phases.set k ph) = countDone bs phases := by
  unfold countDone
  apply List.countP_congr
  intro j _
  by_cases hjk : j = k
  · subst hjk; simp [h]
  · have : doneBit bs (phases.set k ph) j = doneBit bs phases j := by
      unfold doneBit
      rw [List.getElem?_set_ne (fun hq => hjk hq.symm)]
    simp [this]

theorem doneBit_false_of_phase {P : Type} (bs : List (CheckOutcome P))
    (phases : List MemberPhase) (k : Nat) (ph : MemberPhase)
    (hp : phases[k]? = some ph) (hph : ph ≠ MemberPhase.finished) :
    doneBit bs phases k = false := by
  unfold doneBit
  rw [hp]
  cases bs[k]? <;> simp [hph]

theorem recvd_of_append {P : Type} (resLog : List (Nat × List P))
    (m : Nat) (x : Nat × List P) (h : m ≤ resLog.length) :
    (resLog ++ [x]).take m = resLog.take m := by
  rw [List.take_append_eq_append_take]
  simp [Nat.sub_eq_zero_of_le h]

/-- Invariant preservation: a normal member's send on the results channel. -/
theorem inv_memberSend_normal {P : Type} {bs : List (CheckOutcome P)}
    {s : GState P} {k : Nat} {b : CheckOutcome P}
    (hinv : Inv bs s) (hph : s.phases[k]? = some MemberPhase.running)
    (hb : bs[k]? = some b) (hnorm : isNormalB b = true) :
    Inv bs { s with phases := s.phases.set k MemberPhase.deferring,
                    resLog := s.resLog ++ [(k, probsOf b)] } := by
  have hk : k < s.phases.length := lt_of_phase_some hph
  have hknotin : k ∉ s.resLog.map Prod.fst := by
    intro hmem
    rcases List.mem_map.mp hmem with ⟨e, he, hfst⟩
    rcases hinv.res_entries e he with ⟨b', _, _, _, hnr⟩
    rw [hfst] at hnr
    exact not_notRunning_of_running hph hnr
  refine ⟨?_, ?_, ?_, ?_, ?_, ?_, ?_, ?_, ?_, ?_, ?_, ?_, ?_, ?_, ?_, ?_⟩
  · simpa using hinv.len
  · dsimp only
    calc s.resPop ≤ s.resLog.length := hinv.resPop_le
      _ ≤ (s.resLog ++ [(k, probsOf b)]).length := by simp
  · exact hinv.errPop_le1
  · exact hinv.errPop_le
  · intro e he
    dsimp only at he
    rcases List.mem_append.mp he with he | he
    · rcases hinv.res_entries e he with ⟨b', h1, h2, h3, hnr⟩
      exact ⟨b', h1, h2, h3, notRunningL_set_mono (Or.inl rfl) hnr⟩
    · have : e = (k, probsOf b) := by simpa using he
      subst this
      exact ⟨b, hb, hnorm, rfl, notRunningL_set_self (Or.inl rfl) hk⟩
  · dsimp only
    rw [List.map_append]
    apply List.Nodup.append hinv.res_nodup (by simp)
    intro x hx hx2
    simp only [List.map_cons, List.map_nil, List.mem_singleton] at hx2
    subst hx2
    exact hknotin hx
  · intro j b' hb' hn' hnr
    dsimp only
    rw [List.map_append]
    by_cases hjk : j = k
    · subst hjk; simp
    · have hnr2 : NotRunningL s.phases j :=
        (notRunningL_set_ne hjk).mp hnr
      exact List.mem_append.mpr
        (Or.inl (hinv.res_complete j b' hb' hn' hnr2))
  · intro e he
    rcases hinv.err_entries e he with ⟨h1, h2, h3⟩ | ⟨k', b', h1, h2, h3, h4, hnr⟩
    · exact Or.inl ⟨h1, h2, h3⟩
    · exact Or.inr ⟨k', b', h1, h2, h3, h4,
        notRunningL_set_mono (Or.inl rfl) hnr⟩
  · exact hinv.err_nodup
  · intro j b' hb' hn' hnr
    by_cases hjk : j = k
    · subst hjk
      rw [hb] at hb'
      injection hb' with hbb
      rw [← hbb] at hn'
      rw [hnorm] at hn'
      cases hn'
    · have hnr2 : NotRunningL s.phases j :=
        (notRunningL_set_ne hjk).mp hnr
      exact hinv.err_complete j b' hb' hn' hnr2
  · exact hinv.nil_shape
  · dsimp only
    rw [hinv.done_eq]
    symm
    apply countDone_set_eq
    rw [doneBit_false_of_phase bs s.phases k MemberPhase.running hph
      (by simp)]
    apply doneBit_false_of_phase bs _ k MemberPhase.deferring _ (by simp)
    rw [List.getElem?_set_self hk]
  · exact hinv.nil_done
  · intro i acc ha
    dsimp only at ha ⊢
    rcases hinv.agg_loop i acc ha with ⟨h1, h2, h3⟩
    refine ⟨h1, ?_, h3⟩
    rw [h2]
    simp only [recvd]
    rw [recvd_of_append _ _ _ hinv.resPop_le]
  · intro res err ha
    dsimp only at ha ⊢
    rcases hinv.agg_ret res err ha with ⟨h1, h2⟩
    constructor
    · rw [h1]
      simp only [recvd]
      rw [recvd_of_append _ _ _ hinv.resPop_le]
    · exact h2
  · intro j hj
    dsimp only at hj
    by_cases hjk : j = k
    · subst hjk
      exact ⟨b, hb, isPanicB_false_of_normal hnorm⟩
    · rw [List.getElem?_set_ne (fun hq => hjk hq.symm)] at hj
      exact hinv.def_nonpanic j hj

theorem doneBit_false_of_panic {P : Type} (bs : List (CheckOutcome P))
    (phases : List MemberPhase) (k : Nat) {b : CheckOutcome P}
    (hb : bs[k]? = some b) (hp : isPanicB b = true) :
    doneBit bs phases k = false := by
  unfold doneBit
  rw [hb]
  cases phases[k]? <;> simp [hp]

theorem nilSent_false_of_phase {P : Type} {bs : List (CheckOutcome P)}
    {s : GState P} {k : Nat} {ph : MemberPhase} (hinv : Inv bs s)
    (hk : k < bs.length) (hph : s.phases[k]? = some ph)
    (hfin : ph ≠ MemberPhase.finished) : s.nilSent = false := by
  cases hns : s.nilSent
  · rfl
  · exfalso
    have hdc := hinv.nil_done hns
    have := (all_done_of_doneCount hinv hdc k hk).2
    rw [hph] at this
    injection this with h2
    exact hfin h2

theorem errSender_notin_of_running {P : Type} {bs : List (CheckOutcome P)}
    {s : GState P} {k : Nat}
    (hinv : Inv bs s) (hph : s.phases[k]? = some MemberPhase.running) :
    k ∉ s.errLog.filterMap ErrSlot.sender := by
  intro hmem
  rcases List.mem_filterMap.mp hmem with ⟨e, he, hs⟩
  rcases hinv.err_entries e he with ⟨h1, _, _⟩ | ⟨k', b', h1, _, _, _, hnr⟩
  · rw [h1] at hs; cases hs
  · rw [h1] at hs
    injection hs with hs
    rw [hs] at hnr
    exact not_notRunning_of_running hph hnr

/-- Invariant preservation: an erroring member's send on the error channel. -/
theorem inv_memberSend_error {P : Type} {bs : List (CheckOutcome P)}
    {s : GState P} {k : Nat} {ps : List P} {e : Option GoError}
    (hinv : Inv bs s) (hph : s.phases[k]? = some MemberPhase.running)
    (hb : bs[k]? = some (CheckOutcome.ret ps e)) (hreal : isRealError e = true) :
    Inv bs { s with phases := s.phases.set k MemberPhase.deferring,
                    errLog := s.errLog ++ [⟨some k, e⟩] } := by
  have hk : k < s.phases.length := lt_of_phase_some hph
  have hkbs : k < bs.length := (List.getElem?_eq_some_iff.mp hb).1
  have hnotnorm : isNormalB (CheckOutcome.ret ps e) = false := by
    simp [isNormalB, hreal]
  have hns : s.nilSent = false :=
    nilSent_false_of_phase hinv hkbs hph (by simp)
  have hknotin : k ∉ s.errLog.filterMap ErrSlot.sender :=
    errSender_notin_of_running hinv hph
  refine ⟨?_, ?_, ?_, ?_, ?_, ?_, ?_, ?_, ?_, ?_, ?_, ?_, ?_, ?_, ?_, ?_⟩
  · simpa using hinv.len
  · exact hinv.resPop_le
  · exact hinv.errPop_le1
  · dsimp only
    calc s.errPop ≤ s.errLog.length := hinv.errPop_le
      _ ≤ (s.errLog ++ [ErrSlot.mk (some k) e]).length := by simp
  · intro q hq
    rcases hinv.res_entries q hq with ⟨b', h1, h2, h3, hnr⟩
    exact ⟨b', h1, h2, h3, notRunningL_set_mono (Or.inl rfl) hnr⟩
  · exact hinv.res_nodup
  · intro j b' hb' hn' hnr
    by_cases hjk : j = k
    · subst hjk
      rw [hb] at hb'
      injection hb' with hbb
      rw [← hbb, hnotnorm] at hn'
      cases hn'
    · exact hinv.res_complete j b' hb' hn'
        ((notRunningL_set_ne hjk).mp hnr)
  · intro q hq
    dsimp only at hq
    rcases List.mem_append.mp hq with hq | hq
    · rcases hinv.err_entries q hq with ⟨h1, h2, h3⟩ |
        ⟨k', b', h1, h2, h3, h4, hnr⟩
      · rw [hns] at h3; cases h3
      · exact Or.inr ⟨k', b', h1, h2, h3, h4,
          notRunningL_set_mono (Or.inl rfl) hnr⟩
    · have : q = ⟨some k, e⟩ := by simpa using hq
      subst this
      refine Or.inr ⟨k, CheckOutcome.ret ps e, rfl, hb, hnotnorm, ?_,
        notRunningL_set_self (Or.inl rfl) hk⟩
      simp [sentErrOf, hreal]
  · dsimp only
    rw [List.filterMap_append]
    apply List.Nodup.append hinv.err_nodup (by simp)
    intro x hx hx2
    simp only [List.filterMap_cons, List.filterMap_nil, ErrSlot.sender,
      List.mem_singleton] at hx2
    subst hx2
    exact hknotin hx
  · intro j b' hb' hn' hnr
    dsimp only
    rw [List.filterMap_append]
    by_cases hjk : j = k
    · subst hjk; simp [ErrSlot.sender]
    · exact List.mem_append.mpr (Or.inl (hinv.err_complete j b' hb' hn'
        ((notRunningL_set_ne hjk).mp hnr)))
  · intro h
    dsimp only at h
    rw [hns] at h
    cases h
  · dsimp only
    rw [hinv.done_eq]
    symm
    apply countDone_set_eq
    rw [doneBit_false_of_phase bs s.phases k MemberPhase.running hph
      (by simp)]
    apply doneBit_false_of_phase bs _ k MemberPhase.deferring _ (by simp)
    rw [List.getElem?_set_self hk]
  · intro h
    dsimp only at h
    rw [hns] at h
    cases h
  · intro i acc ha
    exact hinv.agg_loop i acc ha
  · intro res err ha
    dsimp only at ha ⊢
    rcases hinv.agg_ret res err ha with ⟨h1, h2⟩
    refine ⟨h1, ?_⟩
    rcases h2 with ⟨hp1, slot, rest, hlog, hval⟩ | h2
    · exact Or.inl ⟨hp1, slot, rest ++ [⟨some k, e⟩], by rw [hlog]; simp,
        hval⟩
    · exact Or.inr h2
  · intro j hj
    dsimp only at hj
    by_cases hjk : j = k
    · subst hjk
      exact ⟨CheckOutcome.ret ps e, hb, by simp [isPanicB]⟩
    · rw [List.getElem?_set_ne (fun hq => hjk hq.symm)] at hj
      exact hinv.def_nonpanic j hj

/-- Invariant preservation: a panicking member's send of the converted panic
error on the error channel, from inside the deferred function. -/
theorem inv_memberSend_panic {P : Type} {bs : List (CheckOutcome P)}
    {s : GState P} {k : Nat} {v : String}
    (hinv : Inv bs s) (hph : s.phases[k]? = some MemberPhase.running)
    (hb : bs[k]? = some (CheckOutcome.panics v)) :
    Inv bs { s with phases := s.phases.set k MemberPhase.finished,
                    errLog := s.errLog ++
                      [⟨some k, some (GoError.mk ("panic: " ++ v))⟩] } := by
  have hk : k < s.phases.length := lt_of_phase_some hph
  have hkbs : k < bs.length := (List.getElem?_eq_some_iff.mp hb).1
  have hnotnorm : isNormalB (CheckOutcome.panics v : CheckOutcome P) = false := by
    simp [isNormalB]
  have hns : s.nilSent = false :=
    nilSent_false_of_phase hinv hkbs hph (by simp)
  have hknotin : k ∉ s.errLog.filterMap ErrSlot.sender :=
    errSender_notin_of_running hinv hph
  refine ⟨?_, ?_, ?_, ?_, ?_, ?_, ?_, ?_, ?_, ?_, ?_, ?_, ?_, ?_, ?_, ?_⟩
  · simpa using hinv.len
  · exact hinv.resPop_le
  · exact hinv.errPop_le1
  · dsimp only
    calc s.errPop ≤ s.errLog.length := hinv.errPop_le
      _ ≤ (s.errLog ++
            [ErrSlot.mk (some k) (some (GoError.mk ("panic: " ++ v)))]).length := by
        simp
  · intro q hq
    rcases hinv.res_entries q hq with ⟨b', h1, h2, h3, hnr⟩
    exact ⟨b', h1, h2, h3, notRunningL_set_mono (Or.inr rfl) hnr⟩
  · exact hinv.res_nodup
  · intro j b' hb' hn' hnr
    by_cases hjk : j = k
    · subst hjk
      rw [hb] at hb'
      injection hb' with hbb
      rw [← hbb, hnotnorm] at hn'
      cases hn'
    · exact hinv.res_complete j b' hb' hn'
        ((notRunningL_set_ne hjk).mp hnr)
  · intro q hq
    dsimp only at hq
    rcases List.mem_append.mp hq with hq | hq
    · rcases hinv.err_entries q hq with ⟨h1, h2, h3⟩ |
        ⟨k', b', h1, h2, h3, h4, hnr⟩
      · rw [hns] at h3; cases h3
      · exact Or.inr ⟨k', b', h1, h2, h3, h4,
          notRunningL_set_mono (Or.inr rfl) hnr⟩
    · have : q = ⟨some k, some (GoError.mk ("panic: " ++ v))⟩ := by
        simpa using hq
      subst this
      exact Or.inr ⟨k, CheckOutcome.panics v, rfl, hb, hnotnorm,
        by simp [sentErrOf], notRunningL_set_self (Or.inr rfl) hk⟩
  · dsimp only
    rw [List.filterMap_append]
    apply List.Nodup.append hinv.err_nodup (by simp)
    intro x hx hx2
    simp only [List.filterMap_cons, List.filterMap_nil, ErrSlot.sender,
      List.mem_singleton] at hx2
    subst hx2
    exact hknotin hx
  · intro j b' hb' hn' hnr
    dsimp only
    rw [List.filterMap_append]
    by_cases hjk : j = k
    · subst hjk; simp [ErrSlot.sender]
    · exact List.mem_append.mpr (Or.inl (hinv.err_complete j b' hb' hn'
        ((notRunningL_set_ne hjk).mp hnr)))
  · intro h
    dsimp only at h
    rw [hns] at h
    cases h
  · dsimp only
    rw [hinv.done_eq]
    symm
    apply countDone_set_eq
    rw [doneBit_false_of_panic bs s.phases k hb rfl]
    exact doneBit_false_of_panic bs _ k hb rfl
  · intro h
    dsimp only at h
    rw [hns] at h
    cases h
  · intro i acc ha
    exact hinv.agg_loop i acc ha
  · intro res err ha
    dsimp only at ha ⊢
    rcases hinv.agg_ret res err ha with ⟨h1, h2⟩
    refine ⟨h1, ?_⟩
    rcases h2 with ⟨hp1, slot, rest, hlog, hval⟩ | h2
    · exact Or.inl ⟨hp1, slot,
        rest ++ [⟨some k, some (GoError.mk ("panic: " ++ v))⟩],
        by rw [hlog]; simp, hval⟩
    · exact Or.inr h2
  · intro j hj
    dsimp only at hj
    by_cases hjk : j = k
    · subst hjk
      rw [List.getElem?_set_self hk] at hj
      injection hj with hj2
      cases hj2
    · rw [List.getElem?_set_ne (fun hq => hjk hq.symm)] at hj
      exact hinv.def_nonpanic j hj

/-- Invariant preservation: a member goroutine's deferred wg.Done. -/
theorem inv_memberDone {P : Type} {bs : List (CheckOutcome P)}
    {s : GState P} {k : Nat}
    (hinv : Inv bs s) (hph : s.phases[k]? = some MemberPhase.deferring) :
    Inv bs { s with phases := s.phases.set k MemberPhase.finished,
                    doneCount := s.doneCount + 1 } := by
  have hk : k < s.phases.length := lt_of_phase_some hph
  have hkbs : k < bs.length := by rw [← hinv.len]; exact hk
  have hns : s.nilSent = false :=
    nilSent_false_of_phase hinv hkbs hph (by simp)
  have hnrk : NotRunningL s.phases k := Or.inl hph
  refine ⟨?_, ?_, ?_, ?_, ?_, ?_, ?_, ?_, ?_, ?_, ?_, ?_, ?_, ?_, ?_, ?_⟩
  · simpa using hinv.len
  · exact hinv.resPop_le
  · exact hinv.errPop_le1
  · exact hinv.errPop_le
  · intro q hq
    rcases hinv.res_entries q hq with ⟨b', h1, h2, h3, hnr⟩
    exact ⟨b', h1, h2, h3, notRunningL_set_mono (Or.inr rfl) hnr⟩
  · exact hinv.res_nodup
  · intro j b' hb' hn' hnr
    by_cases hjk : j = k
    · subst hjk
      exact hinv.res_complete j b' hb' hn' hnrk
    · exact hinv.res_complete j b' hb' hn'
        ((notRunningL_set_ne hjk).mp hnr)
  · intro q hq
    rcases hinv.err_entries q hq with ⟨h1, h2, h3⟩ |
      ⟨k', b', h1, h2, h3, h4, hnr⟩
    · exact Or.inl ⟨h1, h2, h3⟩
    · exact Or.inr ⟨k', b', h1, h2, h3, h4,
        notRunningL_set_mono (Or.inr rfl) hnr⟩
  · exact hinv.err_nodup
  · intro j b' hb' hn' hnr
    by_cases hjk : j = k
    · subst hjk
      exact hinv.err_complete j b' hb' hn' hnrk
    · exact hinv.err_complete j b' hb' hn'
        ((notRunningL_set_ne hjk).mp hnr)
  · exact hinv.nil_shape
  · dsimp only
    rcases hinv.def_nonpanic k hph with ⟨b, hb, hbp⟩
    have hf : doneBit bs s.phases k = false :=
      doneBit_false_of_phase bs s.phases k MemberPhase.deferring hph (by simp)
    have hg : doneBit bs (s.phases.set k MemberPhase.finished) k = true := by
      unfold doneBit
      rw [hb, List.getElem?_set_self hk]
      simp [hbp]
    have hagree : ∀ j ∈ List.range bs.length, j ≠ k →
        doneBit bs s.phases j =
          doneBit bs (s.phases.set k MemberPhase.finished) j := by
      intro j _ hjk
      unfold doneBit
      rw [List.getElem?_set_ne (fun hq => hjk hq.symm)]
    have := countP_update_one (l := List.range bs.length)
      (List.nodup_range bs.length) (List.mem_range.mpr hkbs) hf hg hagree
    unfold countDone
    rw [this]
    rw [hinv.done_eq]
    rfl
  · intro h
    dsimp only at h
    rw [hns] at h
    cases h
  · intro i acc ha
    exact hinv.agg_loop i acc ha
  · intro res err ha
    exact hinv.agg_ret res err ha
  · intro j hj
    dsimp only at hj
    by_cases hjk : j = k
    · subst hjk
      rw [List.getElem?_set_self hk] at hj
      injection hj with hj2
      cases hj2
    · rw [List.getElem?_set_ne (fun hq => hjk hq.symm)] at hj
      exact hinv.def_nonpanic j hj

/-- Invariant preservation: the coordinator goroutine's nil marker send
after wg.Wait returns. -/
theorem inv_coordinatorNil {P : Type} {bs : List (CheckOutcome P)}
    {s : GState P}
    (hinv : Inv bs s) (hdc : s.doneCount = bs.length)
    (hns : s.nilSent = false) :
    Inv bs { s with nilSent := true,
                    errLog := s.errLog ++ [⟨none, none⟩] } := by
  refine ⟨?_, ?_, ?_, ?_, ?_, ?_, ?_, ?_, ?_, ?_, ?_, ?_, ?_, ?_, ?_, ?_⟩
  · exact hinv.len
  · exact hinv.resPop_le
  · exact hinv.errPop_le1
  · dsimp only
    calc s.errPop ≤ s.errLog.length := hinv.errPop_le
      _ ≤ (s.errLog ++ [ErrSlot.mk none none]).length := by simp
  · exact hinv.res_entries
  · exact hinv.res_nodup
  · exact hinv.res_complete
  · intro q hq
    dsimp only at hq
    rcases List.mem_append.mp hq with hq | hq
    · rcases hinv.err_entries q hq with ⟨h1, h2, h3⟩ |
        ⟨k', b', h1, h2, h3, h4, hnr⟩
      · rw [hns] at h3; cases h3
      · exact Or.inr ⟨k', b', h1, h2, h3, h4, hnr⟩
    · have : q = ⟨none, none⟩ := by simpa using hq
      subst this
      exact Or.inl ⟨rfl, rfl, rfl⟩
  · dsimp only
    rw [List.filterMap_append]
    simpa [ErrSlot.sender] using hinv.err_nodup
  · intro j b' hb' hn' hnr
    dsimp only
    rw [List.filterMap_append]
    exact List.mem_append.mpr
      (Or.inl (hinv.err_complete j b' hb' hn' hnr))
  · intro _
    refine ⟨s.errLog, rfl, ?_⟩
    intro q hq hsender
    rcases hinv.err_entries q hq with ⟨h1, h2, h3⟩ |
      ⟨k', b', h1, h2, h3, h4, hnr⟩
    · rw [hns] at h3; cases h3
    · rw [h1] at hsender; cases hsender
  · exact hinv.done_eq
  · intro _
    exact hdc
  · intro i acc ha
    exact hinv.agg_loop i acc ha
  · intro res err ha
    dsimp only at ha ⊢
    rcases hinv.agg_ret res err ha with ⟨h1, h2⟩
    refine ⟨h1, ?_⟩
    rcases h2 with ⟨hp1, slot, rest, hlog, hval⟩ | h2
    · exact Or.inl ⟨hp1, slot, rest ++ [⟨none, none⟩],
        by rw [hlog]; simp, hval⟩
    · exact Or.inr h2
  · exact hinv.def_nonpanic

/-- Invariant preservation: the aggregating loop receives a result. -/
theorem inv_aggResult {P : Type} {bs : List (CheckOutcome P)} {s : GState P}
    {i : Nat} {acc : List P} {k0 : Nat} {ps : List P}
    {rest : List (Nat × List P)}
    (hinv : Inv bs s) (hagg : s.agg = AggPhase.looping i acc)
    (hch : resultsChan s = (k0, ps) :: rest) (_hi : i < bs.length) :
    Inv bs { s with resPop := s.resPop + 1,
                    agg := AggPhase.looping (i + 1) (acc ++ ps) } := by
  rcases hinv.agg_loop i acc hagg with ⟨hip, hacc, hep⟩
  have hlt : s.resPop < s.resLog.length := by
    have := congrArg List.length hch
    simp only [resultsChan, List.length_drop, List.length_cons] at this
    omega
  have hget : s.resLog[s.resPop]? = some (k0, ps) := by
    rw [← List.head?_drop]
    rw [show s.resLog.drop s.resPop = (k0, ps) :: rest from hch]
    rfl
  refine ⟨?_, ?_, ?_, ?_, ?_, ?_, ?_, ?_, ?_, ?_, ?_, ?_, ?_, ?_, ?_, ?_⟩
  · exact hinv.len
  · dsimp only
    omega
  · exact hinv.errPop_le1
  · exact hinv.errPop_le
  · exact hinv.res_entries
  · exact hinv.res_nodup
  · exact hinv.res_complete
  · exact hinv.err_entries
  · exact hinv.err_nodup
  · exact hinv.err_complete
  · exact hinv.nil_shape
  · exact hinv.done_eq
  · exact hinv.nil_done
  · intro i' acc' ha
    dsimp only at ha ⊢
    injection ha with h1 h2
    refine ⟨by omega, ?_, hep⟩
    subst h2
    rw [hacc]
    simp only [recvd]
    rw [List.take_succ, hget]
    simp
  · intro res err ha
    dsimp only at ha
    cases ha
  · exact hinv.def_nonpanic

/-- Invariant preservation: the aggregating loop receives from the error
channel and Check returns. -/
theorem inv_aggErr {P : Type} {bs : List (CheckOutcome P)} {s : GState P}
    {i : Nat} {acc : List P} {slot : ErrSlot} {rest : List ErrSlot}
    (hinv : Inv bs s) (hagg : s.agg = AggPhase.looping i acc)
    (hch : errChan s = slot :: rest) (_hi : i < bs.length) :
    Inv bs { s with errPop := s.errPop + 1,
                    agg := AggPhase.returned acc slot.val } := by
  rcases hinv.agg_loop i acc hagg with ⟨hip, hacc, hep⟩
  have hlt : s.errPop < s.errLog.length := by
    have := congrArg List.length hch
    simp only [errChan, List.length_drop, List.length_cons] at this
    omega
  have hlog : s.errLog = slot :: rest := by
    have := hch
    simp only [errChan, hep, List.drop_zero] at this
    exact this
  refine ⟨?_, ?_, ?_, ?_, ?_, ?_, ?_, ?_, ?_, ?_, ?_, ?_, ?_, ?_, ?_, ?_⟩
  · exact hinv.len
  · exact hinv.resPop_le
  · dsimp only
    omega
  · dsimp only
    omega
  · exact hinv.res_entries
  · exact hinv.res_nodup
  · exact hinv.res_complete
  · exact hinv.err_entries
  · exact hinv.err_nodup
  · exact hinv.err_complete
  · exact hinv.nil_shape
  · exact hinv.done_eq
  · exact hinv.nil_done
  · intro i' acc' ha
    dsimp only at ha
    cases ha
  · intro res err ha
    dsimp only at ha ⊢
    injection ha with h1 h2
    subst h1
    refine ⟨hacc, Or.inl ⟨by omega, slot, rest, hlog, h2.symm⟩⟩
  · exact hinv.def_nonpanic

/-- Invariant preservation: the aggregating loop exits normally after
consuming len(c) results. -/
theorem inv_aggDone {P : Type} {bs : List (CheckOutcome P)} {s : GState P}
    {i : Nat} {acc : List P}
    (hinv : Inv bs s) (hagg : s.agg = AggPhase.looping i acc)
    (hi : i = bs.length) :
    Inv bs { s with agg := AggPhase.returned acc none } := by
  rcases hinv.agg_loop i acc hagg with ⟨hip, hacc, hep⟩
  refine ⟨?_, ?_, ?_, ?_, ?_, ?_, ?_, ?_, ?_, ?_, ?_, ?_, ?_, ?_, ?_, ?_⟩
  · exact hinv.len
  · exact hinv.resPop_le
  · exact hinv.errPop_le1
  · exact hinv.errPop_le
  · exact hinv.res_entries
  · exact hinv.res_nodup
  · exact hinv.res_complete
  · exact hinv.err_entries
  · exact hinv.err_nodup
  · exact hinv.err_complete
  · exact hinv.nil_shape
  · exact hinv.done_eq
  · exact hinv.nil_done
  · intro i' acc' ha
    dsimp only at ha
    cases ha
  · intro res err ha
    dsimp only at ha
    injection ha with h1 h2
    subst h1
    refine ⟨hacc, Or.inr ⟨hep, h2.symm, by dsimp only; omega⟩⟩
  · exact hinv.def_nonpanic

/-- Every step of the machine preserves the invariant. -/
theorem inv_step {P : Type} {bs : List (CheckOutcome P)} {s s' : GState P}
    {l : Label} (hinv : Inv bs s) (h : step bs s l = some s') : Inv bs s' := by
  cases l with
  | memberAct k =>
    simp only [step] at h
    split at h
    · rename_i b hph hb
      unfold memberSend at h
      split at h
      · rename_i hnorm
        split at h
        · injection h with h2
          rw [← h2]
          exact inv_memberSend_normal hinv hph hb hnorm
        · cases h
      · rename_i hnotnorm
        split at h
        · split at h
          · injection h with h2
            rw [← h2]
            exact inv_memberSend_panic hinv hph hb
          · injection h with h2
            rw [← h2]
            apply inv_memberSend_error hinv hph hb
            simp only [isNormalB, Bool.not_eq_true'] at hnotnorm
            simpa using hnotnorm
        · cases h
    · rename_i hph
      injection h with h2
      rw [← h2]
      exact inv_memberDone hinv hph
    · cases h
  | coordinatorNil =>
    simp only [step] at h
    split at h
    · rename_i hcond
      injection h with h2
      rw [← h2]
      exact inv_coordinatorNil hinv hcond.1 hcond.2.1
    · cases h
  | aggResult =>
    simp only [step] at h
    split at h
    · rename_i i acc k0 ps rest hagg hch
      split at h
      · rename_i hi
        injection h with h2
        rw [← h2]
        exact inv_aggResult hinv hagg hch hi
      · cases h
    · cases h
  | aggErr =>
    simp only [step] at h
    split at h
    · rename_i i acc slot rest hagg hch
      split at h
      · rename_i hi
        injection h with h2
        rw [← h2]
        exact inv_aggErr hinv hagg hch hi
      · cases h
    · cases h
  | aggDone =>
    simp only [step] at h
    split at h
    · rename_i i acc hagg
      split at h
      · rename_i hi
        injection h with h2
        rw [← h2]
        exact inv_aggDone hinv hagg hi
      · cases h
    · cases h

/-- The invariant holds in every reachable state. -/
theorem reachable_inv {P : Type} {bs : List (CheckOutcome P)} {s : GState P}
    (h : Reachable bs s) : Inv bs s := by
  induction h with
  | init => exact inv_init bs
  | next _ hstep ih => exact inv_step ih hstep

theorem isNormalB_false_of_panic {P : Type} {b : CheckOutcome P}
    (h : isPanicB b = true) : isNormalB b = false := by
  cases b <;> simp_all [isNormalB, isPanicB]

theorem sentErrOf_mk {P : Type} {b : CheckOutcome P}
    (h : isNormalB b = false) : ∃ m, sentErrOf b = some (GoError.mk m) := by
  cases b with
  | ret ps e =>
    simp only [isNormalB, Bool.not_eq_false] at h
    cases e with
    | none => simp [isRealError] at h
    | some g =>
      cases g with
      | notApplicable => simp [isRealError] at h
      | mk m => exact ⟨m, by simp [sentErrOf, isRealError]⟩
  | panics v => exact ⟨"panic: " ++ v, rfl⟩

/-- Total sends on the results channel never exceed the member count. -/
theorem resLog_length_le {P : Type} {bs : List (CheckOutcome P)}
    {s : GState P} (hinv : Inv bs s) : s.resLog.length ≤ bs.length := by
  have := length_le_of_nodup_lt (n := bs.length) hinv.res_nodup ?_
  · simpa using this
  · intro x hx
    rcases List.mem_map.mp hx with ⟨q, hq, hx2⟩
    rcases hinv.res_entries q hq with ⟨b', h1, _, _, _⟩
    rw [← hx2]
    exact (List.getElem?_eq_some_iff.mp h1).1

/-- A member with a non-normal outcome never appears as a results sender, so
with such a member present the results log stays strictly below len(c). -/
theorem resLog_length_lt_of_not_normal {P : Type} {bs : List (CheckOutcome P)}
    {s : GState P} {k : Nat} {b : CheckOutcome P} (hinv : Inv bs s)
    (hb : bs[k]? = some b) (hnn : isNormalB b = false) :
    s.resLog.length < bs.length := by
  have hkn : k < bs.length := (List.getElem?_eq_some_iff.mp hb).1
  have hnotmem : k ∉ s.resLog.map Prod.fst := by
    intro hmem
    rcases List.mem_map.mp hmem with ⟨q, hq, hx2⟩
    rcases hinv.res_entries q hq with ⟨b', h1, h2, _, _⟩
    rw [hx2, hb] at h1
    injection h1 with h1
    rw [← h1, hnn] at h2
    cases h2
  have := length_lt_of_nodup_lt_not_mem (n := bs.length) hinv.res_nodup ?_
    hkn hnotmem
  · simpa using this
  · intro x hx
    rcases List.mem_map.mp hx with ⟨q, hq, hx2⟩
    rcases hinv.res_entries q hq with ⟨b', h1, _, _, _⟩
    rw [← hx2]
    exact (List.getElem?_eq_some_iff.mp h1).1

/-- Member senders on the error channel never exceed the member count. -/
theorem errSenders_length_le {P : Type} {bs : List (CheckOutcome P)}
    {s : GState P} (hinv : Inv bs s) :
    (s.errLog.filterMap ErrSlot.sender).length ≤ bs.length := by
  apply length_le_of_nodup_lt hinv.err_nodup
  intro x hx
  rcases List.mem_filterMap.mp hx with ⟨q, hq, hs⟩
  rcases hinv.err_entries q hq with ⟨h1, _, _⟩ | ⟨k', b', h1, h2, _, _, _⟩
  · rw [h1] at hs; cases hs
  · rw [h1] at hs
    injection hs with hs
    rw [← hs]
    exact (List.getElem?_eq_some_iff.mp h2).1

/-- Total sends on the error channel: member errors plus at most one nil
marker. -/
theorem errLog_length_le {P : Type} {bs : List (CheckOutcome P)}
    {s : GState P} (hinv : Inv bs s) :
    s.errLog.length ≤ (s.errLog.filterMap ErrSlot.sender).length +
      (if s.nilSent then 1 else 0) := by
  cases hns : s.nilSent
  · have hall : ∀ q ∈ s.errLog, (ErrSlot.sender q).isSome := by
      intro q hq
      rcases hinv.err_entries q hq with ⟨h1, _, h3⟩ |
        ⟨k', b', h1, _, _, _, _⟩
      · rw [hns] at h3; cases h3
      · rw [h1]; rfl
    rw [length_filterMap_of_all_isSome hall]
    simp
  · rcases hinv.nil_shape hns with ⟨pre, hlog, hpre⟩
    have hallpre : ∀ q ∈ pre, (ErrSlot.sender q).isSome := by
      intro q hq
      have := hpre q hq
      cases hs : ErrSlot.sender q
      · exact absurd hs this
      · rfl
    rw [hlog]
    rw [List.filterMap_append]
    simp only [List.length_append, List.filterMap_cons]
    rw [length_filterMap_of_all_isSome hallpre]
    simp [ErrSlot.sender]

/-- With the nil marker unsent, total error-channel sends stay at or below
the member count. -/
theorem errLog_length_le_of_not_nil {P : Type} {bs : List (CheckOutcome P)}
    {s : GState P} (hinv : Inv bs s) (hns : s.nilSent = false) :
    s.errLog.length ≤ bs.length := by
  have h1 := errLog_length_le hinv
  rw [hns] at h1
  simp at h1
  exact le_trans h1 (errSenders_length_le hinv)

/-- Characterisation of the error value of a returned Check invocation: it
is nil (normal loop exit or the consumed nil marker) or the head of the
error log, which is a nil marker or a member's delivered error. -/
theorem returned_err_shape {P : Type} {bs : List (CheckOutcome P)}
    {s : GState P} (hinv : Inv bs s) {res : List P} {err : Option GoError}
    (hret : s.agg = AggPhase.returned res err) :
    err = none ∨ ∃ (k : Nat) (b : CheckOutcome P), bs[k]? = some b ∧
      isNormalB b = false ∧ err = sentErrOf b := by
  rcases hinv.agg_ret res err hret with ⟨_, h2⟩
  rcases h2 with ⟨_, slot, rest, hlog, hval⟩ | ⟨_, hnone, _⟩
  · have hmem : slot ∈ s.errLog := by rw [hlog]; exact List.mem_cons_self _ _
    rcases hinv.err_entries slot hmem with ⟨_, h2, _⟩ |
      ⟨k', b', _, h2, h3, h4, _⟩
    · exact Or.inl (by rw [hval, h2])
    · exact Or.inr ⟨k', b', h2, h3, by rw [hval, h4]⟩
  · exact Or.inl hnone

/-- If some member has a non-normal outcome, a returned Check invocation
carries a non-nil error, namely some failing member's delivered error. -/
theorem returned_err_of_failing {P : Type} {bs : List (CheckOutcome P)}
    {s : GState P} {k : Nat} {b : CheckOutcome P} (hinv : Inv bs s)
    (hb : bs[k]? = some b) (hnn : isNormalB b = false)
    {res : List P} {err : Option GoError}
    (hret : s.agg = AggPhase.returned res err) :
    ∃ m, err = some (GoError.mk m) := by
  have hkn : k < bs.length := (List.getElem?_eq_some_iff.mp hb).1
  rcases hinv.agg_ret res err hret with ⟨_, h2⟩
  rcases h2 with ⟨_, slot, rest, hlog, hval⟩ | ⟨_, _, hpop⟩
  · have hmem : slot ∈ s.errLog := by rw [hlog]; exact List.mem_cons_self _ _
    rcases hinv.err_entries slot hmem with ⟨hsend, hv, hnil⟩ |
      ⟨k', b', _, h2, h3, h4, _⟩
    · exfalso
      rcases hinv.nil_shape hnil with ⟨pre, hlog2, hpre⟩
      have hdc := hinv.nil_done hnil
      have hfin := (all_done_of_doneCount hinv hdc k hkn).2
      have hnr : NotRunning s k := Or.inr hfin
      have hkmem := hinv.err_complete k b hb hnn hnr
      rcases List.mem_filterMap.mp hkmem with ⟨q, hq, hqs⟩
      have hpre_nil : pre = [] := by
        cases hpre2 : pre with
        | nil => rfl
        | cons p0 ptail =>
          exfalso
          have : s.errLog = p0 :: (ptail ++ [⟨none, none⟩]) := by
            rw [hlog2, hpre2]; simp
          rw [hlog] at this
          injection this with hhead _
          have := hpre p0 (by rw [hpre2]; exact List.mem_cons_self _ _)
          rw [← hhead, hsend] at this
          exact this rfl
      rw [hlog2, hpre_nil] at hq
      simp only [List.nil_append, List.mem_singleton] at hq
      subst hq
      simp only [ErrSlot.sender] at hqs
      cases hqs
    · rcases sentErrOf_mk h3 with ⟨m, hm⟩
      exact ⟨m, by rw [hval, h4, hm]⟩
  · exfalso
    have h3 := hinv.resPop_le
    have h4 := resLog_length_lt_of_not_normal hinv hb hnn
    omega

/-- The problems of a returned Check invocation are exactly the
concatenation of the received results, which come one from each of some set
of distinct members with normal outcomes, each contributing exactly its own
problem list. -/
theorem returned_res_shape {P : Type} {bs : List (CheckOutcome P)}
    {s : GState P} (hinv : Inv bs s) {res : List P} {err : Option GoError}
    (hret : s.agg = AggPhase.returned res err) :
    res = ((recvd s).map Prod.snd).flatten ∧
      ((recvd s).map Prod.fst).Nodup ∧
      ∀ q ∈ recvd s, ∃ b, bs[q.1]? = some b ∧ isNormalB b = true ∧
        probsOf b = q.2 := by
  rcases hinv.agg_ret res err hret with ⟨h1, _⟩
  refine ⟨h1, ?_, ?_⟩
  · have hsub : List.Sublist ((recvd s).map Prod.fst)
        (s.resLog.map Prod.fst) := by
      unfold recvd
      exact List.Sublist.map _ (List.take_sublist _ _)
    exact List.Nodup.sublist hsub hinv.res_nodup
  · intro q hq
    have hq2 : q ∈ s.resLog := List.take_subset _ _ hq
    rcases hinv.res_entries q hq2 with ⟨b', h1, h2, h3, _⟩
    exact ⟨b', h1, h2, h3⟩

theorem sum_phaseWeight_set_lt {phases : List MemberPhase} {k : Nat}
    {old : MemberPhase} (new : MemberPhase) (hph : phases[k]? = some old)
    (hlt : phaseWeight new < phaseWeight old) :
    ((phases.set k new).map phaseWeight).sum <
      (phases.map phaseWeight).sum := by
  rcases List.getElem?_eq_some_iff.mp hph with ⟨hk, hval⟩
  have hsum := sum_map_set phaseWeight phases k new hk
  rw [List.get_eq_getElem] at hsum
  rw [hval] at hsum
  omega

/-- Every enabled step strictly decreases the remaining-work measure, so
every interleaving of one Check invocation is finite: the group returns in
bounded time. -/
theorem stepMeasure_decreases {P : Type} {bs : List (CheckOutcome P)}
    {s s2 : GState P} {l : Label} (h : step bs s l = some s2) :
    stepMeasure bs s2 < stepMeasure bs s := by
  cases l with
  | memberAct k =>
    simp only [step] at h
    split at h
    · rename_i b hph hb
      unfold memberSend at h
      split at h
      · split at h
        · injection h with h2
          rw [← h2]
          unfold stepMeasure
          dsimp only
          have := sum_phaseWeight_set_lt MemberPhase.deferring hph
            (by simp [phaseWeight])
          omega
        · cases h
      · split at h
        · split at h
          · injection h with h2
            rw [← h2]
            unfold stepMeasure
            dsimp only
            have := sum_phaseWeight_set_lt MemberPhase.finished hph
              (by simp [phaseWeight])
            omega
          · injection h with h2
            rw [← h2]
            unfold stepMeasure
            dsimp only
            have := sum_phaseWeight_set_lt MemberPhase.deferring hph
              (by simp [phaseWeight])
            omega
        · cases h
    · rename_i hph
      injection h with h2
      rw [← h2]
      unfold stepMeasure
      dsimp only
      have := sum_phaseWeight_set_lt MemberPhase.finished hph
        (by simp [phaseWeight])
      omega
    · cases h
  | coordinatorNil =>
    simp only [step] at h
    split at h
    · rename_i hcond
      injection h with h2
      rw [← h2]
      unfold stepMeasure
      dsimp only
      rw [hcond.2.1]
      simp
    · cases h
  | aggResult =>
    simp only [step] at h
    split at h
    · rename_i i acc k0 ps rest hagg hch
      split at h
      · rename_i hi
        injection h with h2
        rw [← h2]
        unfold stepMeasure
        dsimp only
        rw [hagg]
        simp only [aggWeight]
        omega
      · cases h
    · cases h
  | aggErr =>
    simp only [step] at h
    split at h
    · rename_i i acc slot rest hagg hch
      split at h
      · rename_i hi
        injection h with h2
        rw [← h2]
        unfold stepMeasure
        dsimp only
        rw [hagg]
        simp only [aggWeight]
        omega
      · cases h
    · cases h
  | aggDone =>
    simp only [step] at h
    split at h
    · rename_i i acc hagg
      split at h
      · rename_i hi
        injection h with h2
        rw [← h2]
        unfold stepMeasure
        dsimp only
        rw [hagg]
        simp only [aggWeight]
        omega
      · cases h
    · cases h

theorem mem_of_nodup_lt_length_ge {l : List Nat} {n : Nat}
    (hnd : l.Nodup) (hlt : ∀ x ∈ l, x < n) (hlen : n ≤ l.length) :
    ∀ k < n, k ∈ l := by
  intro k hk
  have hcard : l.toFinset.card = l.length := List.toFinset_card_of_nodup hnd
  have hsub : l.toFinset ⊆ Finset.range n := by
    intro x hx
    rw [List.mem_toFinset] at hx
    exact Finset.mem_range.mpr (hlt x hx)
  have heq : l.toFinset = Finset.range n := by
    apply Finset.eq_of_subset_of_card_le hsub
    rw [hcard, Finset.card_range]
    exact hlen
  have : k ∈ l.toFinset := by
    rw [heq]
    exact Finset.mem_range.mpr hk
  exact List.mem_toFinset.mp this

/-- Deadlock freedom: in any reachable state of a nonempty group where some
unit still has an obligation, some unit has an enabled step.  Combined with
the decreasing measure, every maximal interleaving ends in a Final state:
all members and the coordinator complete their channel deliveries and Check
returns; nobody blocks forever. -/
theorem progress {P : Type} {bs : List (CheckOutcome P)} {s : GState P}
    (hne : bs ≠ []) (hinv : Inv bs s) (hnf : ¬ Final bs s) :
    ∃ (l : Label) (s2 : GState P), step bs s l = some s2 := by
  have hn : 0 < bs.length := List.length_pos.mpr hne
  by_cases hallfin : ∀ k < bs.length,
      s.phases[k]? = some MemberPhase.finished
  · by_cases hB : s.doneCount = bs.length → s.nilSent = true
    · have hC : ¬ ∃ res err, s.agg = AggPhase.returned res err :=
        fun hc => hnf ⟨hallfin, hB, hc⟩
      cases hagg : s.agg with
      | returned res err => exact absurd ⟨res, err, hagg⟩ hC
      | looping i acc =>
        rcases hinv.agg_loop i acc hagg with ⟨hip, hacc, hep⟩
        by_cases hi : i = bs.length
        · refine ⟨Label.aggDone, { s with agg := AggPhase.returned acc none },
            ?_⟩
          simp [step, hagg, hi]
        · have hile : i < bs.length := by
            have h1 := hinv.resPop_le
            have h2 := resLog_length_le hinv
            omega
          have herrne : s.errLog ≠ [] := by
            cases hns : s.nilSent
            · have hdcne : s.doneCount ≠ bs.length := by
                intro hdc
                rw [hB hdc] at hns
                cases hns
              by_cases hp : ∃ k, k < bs.length ∧
                  ∃ b, bs[k]? = some b ∧ isPanicB b = true
              · rcases hp with ⟨k, hk, b, hb, hpb⟩
                have hmem := hinv.err_complete k b hb
                  (isNormalB_false_of_panic hpb) (Or.inr (hallfin k hk))
                intro hnil
                rw [hnil] at hmem
                cases hmem
              · exfalso
                push_neg at hp
                apply hdcne
                rw [hinv.done_eq]
                unfold countDone
                have : ∀ j ∈ List.range bs.length,
                    doneBit bs s.phases j = true := by
                  intro j hj
                  have hjn : j < bs.length := List.mem_range.mp hj
                  have hbj : bs[j]? = some bs[j] :=
                    List.getElem?_eq_getElem hjn
                  unfold doneBit
                  rw [hbj, hallfin j hjn]
                  simp [hp j hjn bs[j] hbj]
                rw [List.countP_eq_length.mpr this]
                simp
            · rcases hinv.nil_shape hns with ⟨pre, hlog, _⟩
              rw [hlog]
              simp
          cases herr : s.errLog with
          | nil => exact absurd herr herrne
          | cons slot rest =>
            refine ⟨Label.aggErr,
              { s with errPop := s.errPop + 1, agg := AggPhase.returned acc slot.val }, ?_⟩
            have hch : errChan s = slot :: rest := by
              unfold errChan
              rw [hep, herr]
              rfl
            simp [step, hagg, hch, hile]
    · push_neg at hB
      rcases hB with ⟨hdc, hns2⟩
      have hns : s.nilSent = false := by
        cases h : s.nilSent
        · rfl
        · exact absurd h hns2
      by_cases hsp : (errChan s).length < bs.length
      · refine ⟨Label.coordinatorNil,
          { s with nilSent := true, errLog := s.errLog ++ [⟨none, none⟩] }, ?_⟩
        simp only [step]
        rw [if_pos ⟨hdc, hns, hsp⟩]
      · have hchlen : (errChan s).length = s.errLog.length - s.errPop := by
          unfold errChan
          exact List.length_drop _ _
        have hlogle : s.errLog.length ≤
            (s.errLog.filterMap ErrSlot.sender).length := by
          have := errLog_length_le hinv
          rw [hns] at this
          simpa using this
        have hfle : (s.errLog.filterMap ErrSlot.sender).length ≤ bs.length :=
          errSenders_length_le hinv
        have hfmle : (s.errLog.filterMap ErrSlot.sender).length ≤
            s.errLog.length := List.length_filterMap_le _ _
        have hep0 : s.errPop = 0 := by omega
        have hloglen : bs.length ≤
            (s.errLog.filterMap ErrSlot.sender).length := by omega
        have hallmem := mem_of_nodup_lt_length_ge hinv.err_nodup ?senders_lt
          hloglen
        case senders_lt =>
          intro x hx
          rcases List.mem_filterMap.mp hx with ⟨q, hq, hqs⟩
          rcases hinv.err_entries q hq with ⟨h1, _, _⟩ |
            ⟨k', b', h1, h2, _, _, _⟩
          · rw [h1] at hqs; cases hqs
          · rw [h1] at hqs
            injection hqs with hqs
            rw [← hqs]
            exact (List.getElem?_eq_some_iff.mp h2).1
        have hfail : ∀ k < bs.length, ∃ b, bs[k]? = some b ∧
            isNormalB b = false := by
          intro k hk
          rcases List.mem_filterMap.mp (hallmem k hk) with ⟨q, hq, hqs⟩
          rcases hinv.err_entries q hq with ⟨h1, _, _⟩ |
            ⟨k', b', h1, h2, h3, _, _⟩
          · rw [h1] at hqs; cases hqs
          · rw [h1] at hqs
            injection hqs with hqs
            rw [hqs] at h2
            exact ⟨b', h2, h3⟩
        have hres : s.resLog = [] := by
          cases hr : s.resLog with
          | nil => rfl
          | cons q t =>
            exfalso
            have hqmem : q ∈ s.resLog := by rw [hr]; exact List.mem_cons_self _ _
            rcases hinv.res_entries q hqmem with ⟨b', h1, h2, _, _⟩
            rcases hfail q.1 (List.getElem?_eq_some_iff.mp h1).1 with
              ⟨b2, hb2, hn2⟩
            rw [h1] at hb2
            injection hb2 with hb2
            rw [hb2] at h2
            rw [h2] at hn2
            cases hn2
        have hrp0 : s.resPop = 0 := by
          have := hinv.resPop_le
          rw [hres] at this
          simpa using this
        cases hagg : s.agg with
        | looping i acc =>
          rcases hinv.agg_loop i acc hagg with ⟨hip, _, hep⟩
          have hile : i < bs.length := by omega
          have hlogne : s.errLog ≠ [] := by
            intro hnil
            rw [hnil] at hloglen
            simp only [List.filterMap_nil, List.length_nil,
              Nat.le_zero] at hloglen
            omega
          cases herr : s.errLog with
          | nil => exact absurd herr hlogne
          | cons slot rest =>
            refine ⟨Label.aggErr,
              { s with errPop := s.errPop + 1, agg := AggPhase.returned acc slot.val }, ?_⟩
            have hch : errChan s = slot :: rest := by
              unfold errChan
              rw [hep, herr]
              rfl
            simp [step, hagg, hch, hile]
        | returned res err =>
          exfalso
          rcases hinv.agg_ret res err hagg with ⟨_, h2⟩
          rcases h2 with ⟨hp1, _⟩ | ⟨_, _, hpn⟩
          · omega
          · omega
  · push_neg at hallfin
    rcases hallfin with ⟨k, hk, hkfin⟩
    have hk2 : k < s.phases.length := by rw [hinv.len]; exact hk
    have hph0 : s.phases[k]? = some s.phases[k] :=
      List.getElem?_eq_getElem hk2
    cases hphval : s.phases[k] with
    | finished =>
      exfalso
      apply hkfin
      rw [hph0, hphval]
    | deferring =>
      refine ⟨Label.memberAct k,
        { s with phases := s.phases.set k MemberPhase.finished, doneCount := s.doneCount + 1 }, ?_⟩
      have hph : s.phases[k]? = some MemberPhase.deferring := by
        rw [hph0, hphval]
      simp [step, hph, List.getElem?_eq_getElem hk]
    | running =>
      have hph : s.phases[k]? = some MemberPhase.running := by
        rw [hph0, hphval]
      have hb : bs[k]? = some bs[k] := List.getElem?_eq_getElem hk
      cases hnorm : isNormalB bs[k] with
      | true =>
        have hnotin : k ∉ s.resLog.map Prod.fst := by
          intro hmem
          rcases List.mem_map.mp hmem with ⟨q, hq, hfst⟩
          rcases hinv.res_entries q hq with ⟨b', _, _, _, hnr⟩
          rw [hfst] at hnr
          exact not_notRunning_of_running hph hnr
        have hlt : s.resLog.length < bs.length := by
          have := length_lt_of_nodup_lt_not_mem (n := bs.length)
            hinv.res_nodup ?res_lt hk hnotin
          · simpa using this
          case res_lt =>
            intro x hx
            rcases List.mem_map.mp hx with ⟨q, hq, hx2⟩
            rcases hinv.res_entries q hq with ⟨b', h1, _, _, _⟩
            rw [← hx2]
            exact (List.getElem?_eq_some_iff.mp h1).1
        have hsp : (resultsChan s).length < bs.length := by
          unfold resultsChan
          rw [List.length_drop]
          omega
        refine ⟨Label.memberAct k,
          { s with phases := s.phases.set k MemberPhase.deferring, resLog := s.resLog ++ [(k, probsOf bs[k])] }, ?_⟩
        simp [step, hph, hb, memberSend, hnorm, hsp]
      | false =>
        have hns : s.nilSent = false :=
          nilSent_false_of_phase hinv hk hph (by simp)
        have hnotin : k ∉ s.errLog.filterMap ErrSlot.sender :=
          errSender_notin_of_running hinv hph
        have hflt : (s.errLog.filterMap ErrSlot.sender).length < bs.length := by
          apply length_lt_of_nodup_lt_not_mem hinv.err_nodup ?err_lt hk hnotin
          case err_lt =>
            intro x hx
            rcases List.mem_filterMap.mp hx with ⟨q, hq, hqs⟩
            rcases hinv.err_entries q hq with ⟨h1, _, _⟩ |
              ⟨k', b', h1, h2, _, _, _⟩
            · rw [h1] at hqs; cases hqs
            · rw [h1] at hqs
              injection hqs with hqs
              rw [← hqs]
              exact (List.getElem?_eq_some_iff.mp h2).1
        have hlogle : s.errLog.length ≤
            (s.errLog.filterMap ErrSlot.sender).length := by
          have := errLog_length_le hinv
          rw [hns] at this
          simpa using this
        have hsp : (errChan s).length < bs.length := by
          unfold errChan
          rw [List.length_drop]
          omega
        cases hbv : bs[k] with
        | panics v =>
          refine ⟨Label.memberAct k,
            { s with phases := s.phases.set k MemberPhase.finished, errLog := s.errLog ++ [⟨some k, some (GoError.mk ("panic: " ++ v))⟩] }, ?_⟩
          rw [hbv] at hb hnorm
          simp [step, hph, hb, memberSend, hnorm, hsp]
        | ret ps e =>
          refine ⟨Label.memberAct k,
            { s with phases := s.phases.set k MemberPhase.deferring, errLog := s.errLog ++ [⟨some k, e⟩] }, ?_⟩
          rw [hbv] at hb hnorm
          simp [step, hph, hb, memberSend, hnorm, hsp]

theorem memberSend_congr {P : Type} {bs1 bs2 : List (CheckOutcome P)}
    (h : bs1.length = bs2.length) (j : Nat) (b : CheckOutcome P)
    (s : GState P) : memberSend bs1 j b s = memberSend bs2 j b s := by
  unfold memberSend
  rw [h]

theorem step_sentinel_eq {P : Type} (bs : List (CheckOutcome P)) (k : Nat)
    (ps : List P) (s : GState P) (l : Label) :
    step (bs.set k (CheckOutcome.ret ps (some GoError.notApplicable))) s l =
      step (bs.set k (CheckOutcome.ret ps none)) s l := by
  have hlen : (bs.set k (CheckOutcome.ret ps (some GoError.notApplicable))).length =
      (bs.set k (CheckOutcome.ret ps none)).length := by simp
  have hlen1 : (bs.set k (CheckOutcome.ret ps (some GoError.notApplicable))).length =
      bs.length := by simp
  have hlen2 : (bs.set k (CheckOutcome.ret ps none)).length = bs.length := by
    simp
  cases l with
  | memberAct j =>
    simp only [step]
    by_cases hjk : j = k
    · subst hjk
      by_cases hk : j < bs.length
      · rw [List.getElem?_set_self (by simpa using hk),
          List.getElem?_set_self (by simpa using hk)]
        cases hph : s.phases[j]? with
        | none => rfl
        | some ph =>
          cases ph with
          | running =>
            simp only [memberSend, isNormalB, isRealError, probsOf,
              Bool.not_false, hlen1, hlen2, if_true]
          | deferring => rfl
          | finished => rfl
      · have h1 : (bs.set j (CheckOutcome.ret ps
            (some GoError.notApplicable)))[j]? = none :=
          List.getElem?_eq_none (by simpa using Nat.le_of_not_lt hk)
        have h2 : (bs.set j (CheckOutcome.ret ps none))[j]? = none :=
          List.getElem?_eq_none (by simpa using Nat.le_of_not_lt hk)
        rw [h1, h2]
        cases hph : s.phases[j]? with
        | none => rfl
        | some ph =>
          cases ph with
          | running => rfl
          | deferring => rfl
          | finished => rfl
    · rw [List.getElem?_set_ne (fun hq => hjk hq.symm),
        List.getElem?_set_ne (fun hq => hjk hq.symm)]
      cases hph : s.phases[j]? with
      | none => rfl
      | some ph =>
        cases ph with
        | running =>
          cases hbj : bs[j]? with
          | none => rfl
          | some b => exact memberSend_congr hlen j b s
        | deferring => rfl
        | finished => rfl
  | coordinatorNil =>
    simp only [step, hlen1, hlen2]
  | aggResult =>
    simp only [step, hlen1, hlen2]
  | aggErr =>
    simp only [step, hlen1, hlen2]
  | aggDone =>
    simp only [step, hlen1, hlen2]

/-- C8: the validity predicate over ValidationMethod is pure and total,
returning true exactly for the four literals http-01, dns-01, tls-sni-01
and tls-sni-02, and false for every other string, including the near miss
http-02 and the empty string. -/
theorem validMethods_exactly_four :
    (∀ m : ValidationMethod, validMethods m = true ↔
      (m = HTTP01 ∨ m = DNS01 ∨ m = TLSSNI01 ∨ m = TLSSNI02)) ∧
    validMethods "http-02" = false ∧ validMethods "" = false := by
  refine ⟨?_, by decide, by decide⟩
  intro m
  simp only [validMethods, Bool.or_eq_true, decide_eq_true_eq]
  tauto

/-- C1: counterexample to the claim that with all members completing
normally no problem is lost and the nil all-clean marker is never counted
as a drained event.  A single member returns ([7], nil); in the first
schedule the aggregating select consumes the nil marker from the error
channel as its one counted event and Check returns ([], nil), losing the
problem; the second schedule drains the result first and returns
([7], nil).  The outcome under all-normal completion therefore depends on
scheduling and can drop problems. -/
theorem nil_marker_counted_drops_problems :
    (run [CheckOutcome.ret [7] (none : Option GoError)]
      [Label.memberAct 0, Label.memberAct 0, Label.coordinatorNil,
        Label.aggErr]).agg = AggPhase.returned [] none ∧
    (run [CheckOutcome.ret [7] (none : Option GoError)]
      [Label.memberAct 0, Label.aggResult, Label.memberAct 0,
        Label.coordinatorNil, Label.aggDone]).agg
      = AggPhase.returned [7] none := by
  exact ⟨by decide, by decide⟩

/-- C7: counterexample to the claim that two runs of the same group with
deterministic members yield the same multiset of problems.  The same
single-member group (member returns ([5], nil)) run under two schedules
returns the multiset {5} in one run and the empty multiset in the other,
both with a nil error. -/
theorem two_runs_different_problem_multisets :
    (run [CheckOutcome.ret [5] (none : Option GoError)]
      [Label.memberAct 0, Label.aggResult, Label.memberAct 0,
        Label.coordinatorNil, Label.aggDone]).agg
      = AggPhase.returned [5] none ∧
    (run [CheckOutcome.ret [5] (none : Option GoError)]
      [Label.memberAct 0, Label.memberAct 0, Label.coordinatorNil,
        Label.aggErr]).agg = AggPhase.returned [] none ∧
    (([5] : List Nat) : Multiset Nat) ≠ (([] : List Nat) : Multiset Nat) := by
  exact ⟨by decide, by decide, by decide⟩

/-- C2: counterexample to the claim that a member whose Check returns a real
error never reports completion to the coordinator.  In a two-member group
where member 0 returns the error boom and member 1 completes normally, after
both members exit the waitgroup count reaches 2 = N (member 0's deferred
wg.Done ran despite the early error return), wg.Wait returns, and the
coordinator emits the nil all-clean marker right after the member error on
the error channel. -/
theorem erroring_member_still_reports_completion :
    (run [CheckOutcome.ret ([] : List Nat) (some (GoError.mk "boom")),
          CheckOutcome.ret ([] : List Nat) none]
      [Label.memberAct 0, Label.memberAct 0, Label.memberAct 1,
        Label.memberAct 1, Label.coordinatorNil]).doneCount = 2 ∧
    (run [CheckOutcome.ret ([] : List Nat) (some (GoError.mk "boom")),
          CheckOutcome.ret ([] : List Nat) none]
      [Label.memberAct 0, Label.memberAct 0, Label.memberAct 1,
        Label.memberAct 1, Label.coordinatorNil]).errLog
      = [⟨some 0, some (GoError.mk "boom")⟩, ⟨none, none⟩] := by
  exact ⟨by decide, by decide⟩

/-- C2 (amended): on every interleaving, a member whose Check returns a real
error delivers exactly that error on the error channel and never sends on
the results channel; but it still reports completion through its deferred
wg.Done, so when every member has exited and no member panicked the
waitgroup counter reaches len(c) even though a member errored, which is what
lets the coordinator emit the nil marker in a failing run; FIFO order still
places the member's error ahead of any nil marker. -/
theorem erroring_member_delivery_and_completion {P : Type}
    {bs : List (CheckOutcome P)} {s : GState P} {k : Nat} {ps : List P}
    {m : String} (hreach : Reachable bs s)
    (hb : bs[k]? = some (CheckOutcome.ret ps (some (GoError.mk m)))) :
    (∀ q ∈ s.resLog, q.1 ≠ k) ∧
    (NotRunning s k →
      ErrSlot.mk (some k) (some (GoError.mk m)) ∈ s.errLog) ∧
    (s.nilSent = true → ∃ pre, s.errLog = pre ++ [ErrSlot.mk none none] ∧
      ErrSlot.mk (some k) (some (GoError.mk m)) ∈ pre) ∧
    ((∀ j < bs.length, s.phases[j]? = some MemberPhase.finished) →
      (∀ (j : Nat) (b2 : CheckOutcome P), bs[j]? = some b2 →
        isPanicB b2 = false) →
      s.doneCount = bs.length) := by
  have hinv := reachable_inv hreach
  have hkn : k < bs.length := (List.getElem?_eq_some_iff.mp hb).1
  have hnn : isNormalB (CheckOutcome.ret ps (some (GoError.mk m))) = false := by
    simp [isNormalB, isRealError]
  have hdeliver : NotRunning s k →
      ErrSlot.mk (some k) (some (GoError.mk m)) ∈ s.errLog := by
    intro hnr
    have hmem := hinv.err_complete k _ hb hnn hnr
    rcases List.mem_filterMap.mp hmem with ⟨slot, hslot, hsender⟩
    rcases hinv.err_entries slot hslot with ⟨h1, _, _⟩ |
      ⟨k', b', h1, h2, _, h4, _⟩
    · rw [h1] at hsender; cases hsender
    · rw [h1] at hsender
      injection hsender with hsender
      subst hsender
      rw [hb] at h2
      injection h2 with h2
      have hval : slot.val = some (GoError.mk m) := by
        rw [h4, ← h2]
        simp [sentErrOf, isRealError]
      have : slot = ErrSlot.mk (some k') (some (GoError.mk m)) := by
        cases slot
        simp_all
      rw [← this]
      exact hslot
  refine ⟨?_, hdeliver, ?_, ?_⟩
  · intro q hq
    rcases hinv.res_entries q hq with ⟨b', h1, h2, _, _⟩
    intro hqk
    rw [hqk, hb] at h1
    injection h1 with h1
    rw [← h1, hnn] at h2
    cases h2
  · intro hns
    rcases hinv.nil_shape hns with ⟨pre, hlog, hpre⟩
    refine ⟨pre, hlog, ?_⟩
    have hfin := (all_done_of_doneCount hinv (hinv.nil_done hns) k hkn).2
    have hmem := hdeliver (Or.inr hfin)
    rw [hlog] at hmem
    rcases List.mem_append.mp hmem with hmem | hmem
    · exact hmem
    · exfalso
      simp only [List.mem_singleton] at hmem
      injection hmem with hs _
      cases hs
  · intro hallfin hnopanic
    rw [hinv.done_eq]
    unfold countDone
    have : ∀ j ∈ List.range bs.length, doneBit bs s.phases j = true := by
      intro j hj
      have hjn : j < bs.length := List.mem_range.mp hj
      unfold doneBit
      rw [List.getElem?_eq_getElem hjn, hallfin j hjn]
      simp [hnopanic j bs[j] (List.getElem?_eq_getElem hjn)]
    rw [List.countP_eq_length.mpr this]
    simp

/-- C3: on every interleaving in which some member returns a real
(non-sentinel, non-nil) error, a returned Check carries a non-nil error
together with the problems accumulated before that error event; the
accumulated problems are a concatenation of whole contributions of distinct
normally-completing members, so they never exceed the non-failing members'
outputs and never include anything from the failing member; they are
returned, not discarded. -/
theorem failing_group_returns_error_and_partial_results {P : Type}
    {bs : List (CheckOutcome P)} {s : GState P} {k : Nat} {ps : List P}
    {m : String} {res : List P} {err : Option GoError}
    (hreach : Reachable bs s)
    (hb : bs[k]? = some (CheckOutcome.ret ps (some (GoError.mk m))))
    (hret : s.agg = AggPhase.returned res err) :
    (∃ m2, err = some (GoError.mk m2)) ∧
    ∃ L : List (Nat × List P), (L.map Prod.fst).Nodup ∧
      (∀ q ∈ L, (∃ e2, bs[q.1]? = some (CheckOutcome.ret q.2 e2) ∧
        isRealError e2 = false) ∧ q.1 ≠ k) ∧
      res = (L.map Prod.snd).flatten := by
  have hinv := reachable_inv hreach
  have hnn : isNormalB (CheckOutcome.ret ps (some (GoError.mk m))) = false := by
    simp [isNormalB, isRealError]
  refine ⟨returned_err_of_failing hinv hb hnn hret, recvd s, ?_, ?_, ?_⟩
  · exact (returned_res_shape hinv hret).2.1
  · intro q hq
    rcases (returned_res_shape hinv hret).2.2 q hq with ⟨b, hbq, hnorm, hprobs⟩
    have hqk : q.1 ≠ k := by
      intro hqk
      rw [hqk, hb] at hbq
      injection hbq with hbq
      rw [← hbq, hnn] at hnorm
      cases hnorm
    cases b with
    | panics v => rw [isNormalB] at hnorm; cases hnorm
    | ret ps2 e2 =>
      refine ⟨⟨e2, ?_, ?_⟩, hqk⟩
      · rw [hbq]
        simp only [probsOf] at hprobs
        rw [hprobs]
      · simp only [isNormalB, Bool.not_eq_true'] at hnorm
        exact hnorm
  · exact (returned_res_shape hinv hret).1

/-- C4: counterexample to the claim that a run with a panicking member
always returns the fault-derived error.  Member 0 returns an ordinary error,
member 1 panics; both deliver on the error channel, and a schedule in which
member 0's error arrives first makes Check return that error rather than the
panic-derived one. -/
theorem panic_error_can_lose_race :
    (run [CheckOutcome.ret ([] : List Nat) (some (GoError.mk "io failed")),
          CheckOutcome.panics "boom"]
      [Label.memberAct 0, Label.memberAct 1, Label.aggErr]).agg
      = AggPhase.returned [] (some (GoError.mk "io failed")) ∧
    GoError.mk "io failed" ≠ GoError.mk ("panic: " ++ "boom") := by
  exact ⟨by decide, by decide⟩

/-- C4 (amended): a panicking member's fault is intercepted at the goroutine
boundary and converted into the ordinary error panic-colon-value, delivered
on the error channel; the member never delivers results, other members'
deliveries are their own true outputs; and when the panicking member is the
only non-normal member, any returned Check carries exactly the fault-derived
non-nil error.  Every enabled step strictly decreases the global measure, so
the group returns in bounded time along every maximal interleaving. -/
theorem panic_contained_converted_and_fatal {P : Type}
    {bs : List (CheckOutcome P)} {s : GState P} {k : Nat} {v : String}
    (hreach : Reachable bs s) (hb : bs[k]? = some (CheckOutcome.panics v))
    (honly : ∀ (j : Nat) (b2 : CheckOutcome P), j ≠ k → bs[j]? = some b2 →
      isNormalB b2 = true) :
    (NotRunning s k →
      ErrSlot.mk (some k) (some (GoError.mk ("panic: " ++ v))) ∈ s.errLog) ∧
    (∀ q ∈ s.resLog, q.1 ≠ k ∧
      ∃ e2, bs[q.1]? = some (CheckOutcome.ret q.2 e2)) ∧
    (∀ (res : List P) (err : Option GoError),
      s.agg = AggPhase.returned res err →
      err = some (GoError.mk ("panic: " ++ v))) ∧
    (∀ (l : Label) (s2 : GState P), step bs s l = some s2 →
      stepMeasure bs s2 < stepMeasure bs s) := by
  have hinv := reachable_inv hreach
  have hkn : k < bs.length := (List.getElem?_eq_some_iff.mp hb).1
  have hnn : isNormalB (CheckOutcome.panics v : CheckOutcome P) = false := by
    simp [isNormalB]
  refine ⟨?_, ?_, ?_, fun l s2 h => stepMeasure_decreases h⟩
  · intro hnr
    have hmem := hinv.err_complete k _ hb hnn hnr
    rcases List.mem_filterMap.mp hmem with ⟨slot, hslot, hsender⟩
    rcases hinv.err_entries slot hslot with ⟨h1, _, _⟩ |
      ⟨k', b', h1, h2, _, h4, _⟩
    · rw [h1] at hsender; cases hsender
    · rw [h1] at hsender
      injection hsender with hsender
      subst hsender
      rw [hb] at h2
      injection h2 with h2
      have hval : slot.val = some (GoError.mk ("panic: " ++ v)) := by
        rw [h4, ← h2]
        simp [sentErrOf]
      have : slot = ErrSlot.mk (some k') (some (GoError.mk ("panic: " ++ v))) := by
        cases slot
        simp_all
      rw [← this]
      exact hslot
  · intro q hq
    rcases hinv.res_entries q hq with ⟨b', h1, h2, h3, _⟩
    have hqk : q.1 ≠ k := by
      intro hqk
      rw [hqk, hb] at h1
      injection h1 with h1
      rw [← h1, hnn] at h2
      cases h2
    refine ⟨hqk, ?_⟩
    cases b' with
    | panics v2 => rw [isNormalB] at h2; cases h2
    | ret ps2 e2 =>
      refine ⟨e2, ?_⟩
      rw [h1]
      simp only [probsOf] at h3
      rw [h3]
  · intro res err hret
    rcases hinv.agg_ret res err hret with ⟨_, h2⟩
    rcases h2 with ⟨_, slot, rest, hlog, hval⟩ | ⟨_, _, hpop⟩
    · have hmem : slot ∈ s.errLog := by
        rw [hlog]; exact List.mem_cons_self _ _
      rcases hinv.err_entries slot hmem with ⟨_, _, hnil⟩ |
        ⟨k', b', _, h2, h3, h4, _⟩
      · exfalso
        rcases (all_done_of_doneCount hinv (hinv.nil_done hnil) k hkn).1
          with ⟨b2, hb2, hnp⟩
        rw [hb] at hb2
        injection hb2 with hb2
        rw [← hb2] at hnp
        simp [isPanicB] at hnp
      · have hk'k : k' = k := by
          by_contra hne
          rw [honly k' b' hne h2] at h3
          cases h3
        subst hk'k
        rw [hb] at h2
        injection h2 with h2
        rw [hval, h4, ← h2]
        simp [sentErrOf]
    · exfalso
      have h3 := hinv.resPop_le
      have h4 := resLog_length_lt_of_not_normal hinv hb hnn
      omega

/-- C5: on every interleaving, total sends on the results channel never
exceed N (the member count) and total sends on the error channel never
exceed N plus one (member errors plus at most one nil marker), so the
buffered occupancies respect the same bounds; moreover for a nonempty group
every reachable non-Final state has an enabled step and every step strictly
decreases a global measure, so along every maximal interleaving all member
goroutines and the coordinator complete their channel deliveries without
blocking indefinitely, also after Check has returned early on a failure. -/
theorem channel_bounds_and_no_indefinite_blocking {P : Type}
    {bs : List (CheckOutcome P)} {s : GState P} (hreach : Reachable bs s) :
    s.resLog.length ≤ bs.length ∧
    s.errLog.length ≤ bs.length + 1 ∧
    ((resultsChan s).length ≤ bs.length ∧
      (errChan s).length ≤ bs.length + 1) ∧
    (bs ≠ [] → ¬ Final bs s →
      ∃ (l : Label) (s2 : GState P), step bs s l = some s2) ∧
    (∀ (l : Label) (s2 : GState P), step bs s l = some s2 →
      stepMeasure bs s2 < stepMeasure bs s) := by
  have hinv := reachable_inv hreach
  have h1 : s.resLog.length ≤ bs.length := resLog_length_le hinv
  have h2 : s.errLog.length ≤ bs.length + 1 := by
    have ha := errLog_length_le hinv
    have hb := errSenders_length_le hinv
    have : (if s.nilSent then 1 else 0) ≤ 1 := by
      cases s.nilSent <;> simp
    omega
  refine ⟨h1, h2, ⟨?_, ?_⟩, fun hne hnf => progress hne hinv hnf,
    fun l s2 h => stepMeasure_decreases h⟩
  · unfold resultsChan
    rw [List.length_drop]
    omega
  · unfold errChan
    rw [List.length_drop]
    omega

/-- C6: the not-applicable sentinel is recognised by identity (constructor),
never by message text: the member-level fatality test isRealError holds
exactly for non-nil errors other than the sentinel; an error carrying the
sentinel's message text but a different identity is fatal; a member
returning the sentinel behaves step-for-step exactly like one returning a
nil error; and such a member delivers its (possibly non-empty) problems on
the results channel. -/
theorem sentinel_identity_and_nil_equivalence {P : Type} :
    (∀ e : Option GoError, isRealError e = true ↔
      (e ≠ none ∧ e ≠ some errNotApplicable)) ∧
    isRealError (some (GoError.mk (GoError.message errNotApplicable))) = true ∧
    (∀ (bs : List (CheckOutcome P)) (k : Nat) (ps : List P) (s : GState P)
      (l : Label),
      step (bs.set k (CheckOutcome.ret ps (some errNotApplicable))) s l =
        step (bs.set k (CheckOutcome.ret ps none)) s l) ∧
    (∀ (bs : List (CheckOutcome P)) (k : Nat) (ps : List P) (s : GState P),
      bs[k]? = some (CheckOutcome.ret ps (some errNotApplicable)) →
      s.phases[k]? = some MemberPhase.running →
      (resultsChan s).length < bs.length →
      step bs s (Label.memberAct k) = some
        { s with phases := s.phases.set k MemberPhase.deferring,
                 resLog := s.resLog ++ [(k, ps)] }) := by
  refine ⟨?_, rfl, ?_, ?_⟩
  · intro e
    cases e with
    | none => simp [isRealError]
    | some g =>
      cases g with
      | notApplicable => simp [isRealError, errNotApplicable]
      | mk m2 => simp [isRealError, errNotApplicable]
  · intro bs k ps s l
    exact step_sentinel_eq bs k ps s l
  · intro bs k ps s hb hph hspace
    simp only [step]
    rw [hph, hb]
    simp only [memberSend, isNormalB, isRealError, errNotApplicable,
      Bool.not_false, if_true, probsOf]
    rw [if_pos hspace]

/-- C9: a returned Check never carries the not-applicable sentinel as its
own error: the returned error is nil, or it is some member's delivered
error, which is either the member's own non-sentinel error or a
panic-derived error. -/
theorem check_error_never_sentinel {P : Type} {bs : List (CheckOutcome P)}
    {s : GState P} {res : List P} {err : Option GoError}
    (hreach : Reachable bs s) (hret : s.agg = AggPhase.returned res err) :
    err ≠ some errNotApplicable ∧
    (err = none ∨ ∃ (k : Nat) (b : CheckOutcome P), bs[k]? = some b ∧
      isNormalB b = false ∧ err = sentErrOf b) := by
  have hinv := reachable_inv hreach
  have hshape := returned_err_shape hinv hret
  refine ⟨?_, hshape⟩
  rcases hshape with h | ⟨k, b, _, hnn, hval⟩
  · rw [h]
    intro hc
    cases hc
  · rcases sentErrOf_mk hnn with ⟨m, hm⟩
    rw [hval, hm]
    intro hc
    injection hc with hc
    exact GoError.noConfusion hc

/-- C10: for the empty group Check can terminate immediately (the loop runs
zero times and returns (nil, nil)), and every reachable state of the empty
group is the initial state or that returned state, so the return value is
always the empty problem list with a nil error and no channel event is ever
consumed (both receive cursors stay at zero). -/
theorem empty_group_immediate_empty_return {P : Type} :
    step ([] : List (CheckOutcome P)) (initState P 0) Label.aggDone =
      some { initState P 0 with agg := AggPhase.returned ([] : List P) none } ∧
    ∀ s : GState P, Reachable ([] : List (CheckOutcome P)) s →
      s = initState P 0 ∨
        s = { initState P 0 with agg := AggPhase.returned ([] : List P) none } := by
  constructor
  · simp [step, initState]
  · intro s hs
    induction hs with
    | init => exact Or.inl rfl
    | next hprev hstep ih =>
      rename_i s1 s2 l
      rcases ih with rfl | rfl
      · cases l with
        | memberAct k => simp [step, initState] at hstep
        | coordinatorNil => simp [step, initState, errChan] at hstep
        | aggResult => simp [step, initState, resultsChan] at hstep
        | aggErr => simp [step, initState, errChan] at hstep
        | aggDone =>
          simp [step, initState] at hstep
          exact Or.inr hstep.symm
      · cases l with
        | memberAct k => simp [step, initState] at hstep
        | coordinatorNil => simp [step, initState, errChan] at hstep
        | aggResult => simp [step, initState, resultsChan] at hstep
        | aggErr => simp [step, initState, errChan] at hstep
        | aggDone => simp [step, initState] at hstep

/-- Witness for C2 (amended), at the concrete two-member group where member
0 errors with boom and member 1 completes normally, run to completion. -/
theorem erroring_member_delivery_and_completion_witness :
    (∀ q ∈ (run [CheckOutcome.ret ([] : List Nat) (some (GoError.mk "boom")),
          CheckOutcome.ret ([] : List Nat) none]
        [Label.memberAct 0, Label.memberAct 0, Label.memberAct 1,
          Label.memberAct 1, Label.coordinatorNil]).resLog, q.1 ≠ 0) ∧
    (NotRunning (run [CheckOutcome.ret ([] : List Nat)
          (some (GoError.mk "boom")),
          CheckOutcome.ret ([] : List Nat) none]
        [Label.memberAct 0, Label.memberAct 0, Label.memberAct 1,
          Label.memberAct 1, Label.coordinatorNil]) 0 →
      ErrSlot.mk (some 0) (some (GoError.mk "boom")) ∈
        (run [CheckOutcome.ret ([] : List Nat) (some (GoError.mk "boom")),
            CheckOutcome.ret ([] : List Nat) none]
          [Label.memberAct 0, Label.memberAct 0, Label.memberAct 1,
            Label.memberAct 1, Label.coordinatorNil]).errLog) ∧
    ((run [CheckOutcome.ret ([] : List Nat) (some (GoError.mk "boom")),
          CheckOutcome.ret ([] : List Nat) none]
        [Label.memberAct 0, Label.memberAct 0, Label.memberAct 1,
          Label.memberAct 1, Label.coordinatorNil]).nilSent = true →
      ∃ pre, (run [CheckOutcome.ret ([] : List Nat)
            (some (GoError.mk "boom")),
            CheckOutcome.ret ([] : List Nat) none]
          [Label.memberAct 0, Label.memberAct 0, Label.memberAct 1,
            Label.memberAct 1, Label.coordinatorNil]).errLog =
          pre ++ [ErrSlot.mk none none] ∧
        ErrSlot.mk (some 0) (some (GoError.mk "boom")) ∈ pre) ∧
    ((∀ j < 2, (run [CheckOutcome.ret ([] : List Nat)
            (some (GoError.mk "boom")),
            CheckOutcome.ret ([] : List Nat) none]
          [Label.memberAct 0, Label.memberAct 0, Label.memberAct 1,
            Label.memberAct 1, Label.coordinatorNil]).phases[j]? =
          some MemberPhase.finished) →
      (∀ (j : Nat) (b2 : CheckOutcome Nat),
        [CheckOutcome.ret ([] : List Nat) (some (GoError.mk "boom")),
          CheckOutcome.ret ([] : List Nat) none][j]? = some b2 →
        isPanicB b2 = false) →
      (run [CheckOutcome.ret ([] : List Nat) (some (GoError.mk "boom")),
          CheckOutcome.ret ([] : List Nat) none]
        [Label.memberAct 0, Label.memberAct 0, Label.memberAct 1,
          Label.memberAct 1, Label.coordinatorNil]).doneCount = 2) := by
  exact erroring_member_delivery_and_completion
    (reachable_run _ _) rfl

/-- Witness for C3 at the concrete one-member group whose only member
returns the real error x, with the schedule that delivers the error and
returns. -/
theorem failing_group_returns_error_witness :
    (∃ m2, (some (GoError.mk "x") : Option GoError) =
      some (GoError.mk m2)) ∧
    ∃ L : List (Nat × List Nat), (L.map Prod.fst).Nodup ∧
      (∀ q ∈ L, (∃ e2, [CheckOutcome.ret ([] : List Nat)
          (some (GoError.mk "x"))][q.1]? =
          some (CheckOutcome.ret q.2 e2) ∧ isRealError e2 = false) ∧
        q.1 ≠ 0) ∧
      ([] : List Nat) = (L.map Prod.snd).flatten := by
  exact failing_group_returns_error_and_partial_results
    (reachable_run [CheckOutcome.ret ([] : List Nat)
      (some (GoError.mk "x"))] [Label.memberAct 0, Label.aggErr]) rfl rfl

/-- Witness for C4 (amended) at the concrete one-member group whose only
member panics with boom, run to its returned state. -/
theorem panic_contained_converted_and_fatal_witness :
    (NotRunning (run [CheckOutcome.panics "boom" (P := Nat)]
        [Label.memberAct 0, Label.aggErr]) 0 →
      ErrSlot.mk (some 0) (some (GoError.mk ("panic: " ++ "boom"))) ∈
        (run [CheckOutcome.panics "boom" (P := Nat)]
          [Label.memberAct 0, Label.aggErr]).errLog) ∧
    (∀ q ∈ (run [CheckOutcome.panics "boom" (P := Nat)]
        [Label.memberAct 0, Label.aggErr]).resLog, q.1 ≠ 0 ∧
      ∃ e2, [CheckOutcome.panics "boom" (P := Nat)][q.1]? =
        some (CheckOutcome.ret q.2 e2)) ∧
    (∀ (res : List Nat) (err : Option GoError),
      (run [CheckOutcome.panics "boom" (P := Nat)]
        [Label.memberAct 0, Label.aggErr]).agg =
        AggPhase.returned res err →
      err = some (GoError.mk ("panic: " ++ "boom"))) ∧
    (∀ (l : Label) (s2 : GState Nat),
      step [CheckOutcome.panics "boom" (P := Nat)]
        (run [CheckOutcome.panics "boom" (P := Nat)]
          [Label.memberAct 0, Label.aggErr]) l = some s2 →
      stepMeasure [CheckOutcome.panics "boom" (P := Nat)] s2 <
        stepMeasure [CheckOutcome.panics "boom" (P := Nat)]
          (run [CheckOutcome.panics "boom" (P := Nat)]
            [Label.memberAct 0, Label.aggErr])) := by
  apply panic_contained_converted_and_fatal (reachable_run _ _) rfl
  intro j b2 hj hb2
  have hlen : ([CheckOutcome.panics "boom" (P := Nat)]).length ≤ j := by
    have : j ≠ 0 := hj
    simp only [List.length_cons, List.length_nil]
    omega
  rw [List.getElem?_eq_none hlen] at hb2
  cases hb2

/-- Witness for C5 at a concrete one-member group in its initial state. -/
theorem channel_bounds_witness :
    (run [CheckOutcome.ret ([3] : List Nat) none] []).resLog.length ≤ 1 ∧
    (run [CheckOutcome.ret ([3] : List Nat) none] []).errLog.length ≤ 1 + 1 ∧
    ((resultsChan (run [CheckOutcome.ret ([3] : List Nat) none] [])).length ≤ 1 ∧
      (errChan (run [CheckOutcome.ret ([3] : List Nat) none] [])).length ≤ 1 + 1) ∧
    ([CheckOutcome.ret ([3] : List Nat) none] ≠ [] →
      ¬ Final [CheckOutcome.ret ([3] : List Nat) none]
          (run [CheckOutcome.ret ([3] : List Nat) none] []) →
      ∃ (l : Label) (s2 : GState Nat),
        step [CheckOutcome.ret ([3] : List Nat) none]
          (run [CheckOutcome.ret ([3] : List Nat) none] []) l = some s2) ∧
    (∀ (l : Label) (s2 : GState Nat),
      step [CheckOutcome.ret ([3] : List Nat) none]
        (run [CheckOutcome.ret ([3] : List Nat) none] []) l = some s2 →
      stepMeasure [CheckOutcome.ret ([3] : List Nat) none] s2 <
        stepMeasure [CheckOutcome.ret ([3] : List Nat) none]
          (run [CheckOutcome.ret ([3] : List Nat) none] [])) := by
  have h := channel_bounds_and_no_indefinite_blocking
    (reachable_run [CheckOutcome.ret ([3] : List Nat) none] [])
  simpa using h

/-- Witness for C6: the step-level consequences evaluated at a concrete
one-member group whose member returns ([7], sentinel). -/
theorem sentinel_identity_witness :
    step [CheckOutcome.ret ([7] : List Nat) (some errNotApplicable)]
      (initState Nat 1) (Label.memberAct 0) = some
      { initState Nat 1 with
        phases := (initState Nat 1).phases.set 0 MemberPhase.deferring,
        resLog := (initState Nat 1).resLog ++ [(0, [7])] } := by
  exact (sentinel_identity_and_nil_equivalence (P := Nat)).2.2.2
    [CheckOutcome.ret ([7] : List Nat) (some errNotApplicable)] 0 [7]
    (initState Nat 1) rfl rfl (by decide)

/-- Witness for C9 at the concrete one-member group whose member returns
the real error x, run to its returned state. -/
theorem check_error_never_sentinel_witness :
    (some (GoError.mk "x") : Option GoError) ≠ some errNotApplicable ∧
    ((some (GoError.mk "x") : Option GoError) = none ∨
      ∃ (k : Nat) (b : CheckOutcome Nat),
        [CheckOutcome.ret ([] : List Nat) (some (GoError.mk "x"))][k]? =
          some b ∧ isNormalB b = false ∧
        (some (GoError.mk "x") : Option GoError) = sentErrOf b) := by
  exact check_error_never_sentinel
    (reachable_run [CheckOutcome.ret ([] : List Nat)
      (some (GoError.mk "x"))] [Label.memberAct 0, Label.aggErr]) rfl

/-- Witness for C10: the one-step run of the empty group lands in the
returned state. -/
theorem empty_group_immediate_empty_return_witness :
    run ([] : List (CheckOutcome Nat)) [Label.aggDone] = initState Nat 0 ∨
      run ([] : List (CheckOutcome Nat)) [Label.aggDone] =
        { initState Nat 0 with agg := AggPhase.returned ([] : List Nat) none } := by
  exact (empty_group_immediate_empty_return (P := Nat)).2
    (run ([] : List (CheckOutcome Nat)) [Label.aggDone])
    (reachable_run _ _)
